import Mathlib

/-!
Limb-BLAS engine of SDPB (`src/mpmat/mpmat_operations.cpp`)

A shallow embedding of the precision planner, the workspace allocator, the
base-case limb convolution, the transpose resolution and the GPU schedule of
the `mpmat` class, of the schoolbook SYRK schedule kept in `syrk_reduced`, and
of the separator search of `parse_SDP` (`parse_SDP.cxx`), followed by the
properties established about them.

Conventions of the embedding.

* A C++ `int` is an `Int` kept in the range `[-2^31, 2^31)`; the one place of
  the planner where a product of two `int`s can leave that range,
  `k * min(mpmat_size_a, mpmat_size_b)`, goes through an explicit reduction
  `wrap` (`wrap32` for the program as compiled, `id` for the planner read over
  unbounded integers).
* `ceil(log2(x))` of an `int` `x` is the integer ceiling logarithm for
  `x ≥ 1`; for `x ≤ 0` the C library returns `-inf` or `NaN`, and every
  comparison `... > 53` with such a value is false.
* Limbs are integer valued doubles; they are modelled by `Int`, the exactness
  of the double arithmetic being the subject of a separate bound.
-/

namespace Mpmat

/-! ## Integer helpers -/

/-- Two's complement reduction of an integer to the range of a 32 bit `int`. -/
def wrap32 (x : Int) : Int := (x + 2 ^ 31) % 2 ^ 32 - 2 ^ 31

/-- Search loop of `ceil_log2`: the first exponent `e' ≥ e` with `n ≤ 2 ^ e'`. -/
def ceil_log2_loop (n : Nat) : Nat → Nat → Nat
  | 0, e => e
  | fuel + 1, e => if n ≤ 2 ^ e then e else ceil_log2_loop n fuel (e + 1)

/-- The value of `ceil(log2(x))` for an integer `x ≥ 1`: the least `e` with
`x ≤ 2 ^ e`.  (For `x ≤ 0` the callers never use the value.) -/
def ceil_log2 (x : Int) : Int := (ceil_log2_loop x.toNat x.toNat 0 : Nat)

/-- The template `ceil_div` of the source, lines 22-25:
`a / b + ((a % b != 0) & (a > 0))` with the truncating division of C. -/
def ceil_div (a b : Int) : Int :=
  Int.tdiv a b + (if Int.tmod a b ≠ 0 ∧ a > 0 then 1 else 0)

/-- Modelled from the spec: the macro `MPMAT_DOUBLE_MANT_IMPLICIT` of the header
`mpmat.h`, the implicit mantissa width of a double, "M ... (53)". -/
def MPMAT_DOUBLE_MANT_IMPLICIT : Int := 53

/-- The GMP constant `mp_bits_per_limb` on a 64 bit platform. -/
def mp_bits_per_limb : Int := 64

/-! ## Precision planner of `gemm_reduced` (lines 274-285) -/

/-- Outcome of running the planner. -/
inductive PlanResult where
  /-- the loop was left with these `mpmat_limb`, `mpmat_size_a`, `mpmat_size_b` -/
  | done (mpmat_limb mpmat_size_a mpmat_size_b : Int)
  /-- `ceil_div` was entered with `mpmat_limb = 0` (integer division by zero) -/
  | divByZero
  /-- a non finite double (`k ≤ 0`) was converted to `int` -/
  | badConversion
  /-- the while loop was still running when the fuel of the model ran out -/
  | outOfFuel
  deriving DecidableEq

/-- The operand bit count `abs(_mp_prec + 1) * mp_bits_per_limb`, an `int`. -/
def operand_bits (wrap : Int → Int) (prec : Int) : Int :=
  wrap (|prec + 1| * mp_bits_per_limb)

/-- The while loop of lines 279-283.  The condition
`2 * mpmat_limb + ceil(log2(k*min(Sa, Sb))) > MPMAT_DOUBLE_MANT_IMPLICIT`
is false when the `int` product is not positive. -/
def gemm_reduced_loop (wrap : Int → Int) (k wa wb : Int) :
    Nat → Int → Int → Int → PlanResult
  | 0, _, _, _ => PlanResult.outOfFuel
  | fuel + 1, mpmat_limb, mpmat_size_a, mpmat_size_b =>
    let x := wrap (k * min mpmat_size_a mpmat_size_b)
    if 0 < x ∧ 2 * mpmat_limb + ceil_log2 x > MPMAT_DOUBLE_MANT_IMPLICIT then
      let limb := Int.tdiv (MPMAT_DOUBLE_MANT_IMPLICIT - ceil_log2 x) 2
      if limb = 0 then PlanResult.divByZero
      else gemm_reduced_loop wrap k wa wb fuel limb (ceil_div wa limb) (ceil_div wb limb)
    else PlanResult.done mpmat_limb mpmat_size_a mpmat_size_b

/-- Lines 274-283 of `gemm_reduced` (the same text opens `gemm_reduced_gpu`,
lines 385-394): initial limb width, limb counts, then the loop. -/
def gemm_reduced_plan_with (wrap : Int → Int) (fuel : Nat) (k prec_a prec_b : Int) :
    PlanResult :=
  if k ≤ 0 then PlanResult.badConversion
  else
    let mpmat_limb := Int.tdiv (MPMAT_DOUBLE_MANT_IMPLICIT - ceil_log2 k) 2
    if mpmat_limb = 0 then PlanResult.divByZero
    else
      gemm_reduced_loop wrap k (operand_bits wrap prec_a) (operand_bits wrap prec_b) fuel
        mpmat_limb
        (ceil_div (operand_bits wrap prec_a) mpmat_limb)
        (ceil_div (operand_bits wrap prec_b) mpmat_limb)

/-- The planner of `gemm_reduced` as compiled: 32 bit `int` arithmetic. -/
def gemm_reduced_plan (k prec_a prec_b : Int) : PlanResult :=
  gemm_reduced_plan_with wrap32 64 k prec_a prec_b

/-- The same planner read over unbounded integers (no wrap-around). -/
def gemm_reduced_plan_unbounded (k prec_a prec_b : Int) : PlanResult :=
  gemm_reduced_plan_with id 64 k prec_a prec_b

/-- The number of output limb planes of the host path, line 285:
`mpmat_size_c = min(mpmat_size_a, mpmat_size_b)`. -/
def gemm_reduced_size_c (k prec_a prec_b : Int) : Option Int :=
  match gemm_reduced_plan k prec_a prec_b with
  | PlanResult.done _ mpmat_size_a mpmat_size_b => some (min mpmat_size_a mpmat_size_b)
  | _ => none

/-- The number of output limb planes of the GPU path, line 395:
`mpmat_size_c = max(mpmat_size_a, mpmat_size_b)`, after the same planner. -/
def gemm_reduced_gpu_size_c (k prec_a prec_b : Int) : Option Int :=
  match gemm_reduced_plan k prec_a prec_b with
  | PlanResult.done _ mpmat_size_a mpmat_size_b => some (max mpmat_size_a mpmat_size_b)
  | _ => none

/-- The ceiling of `w / L` in the mathematical sense, for `L > 0`
(the spec's `Sa = ⌈(precision_a + 1)·bits_per_machine_limb / L⌉`). -/
def spec_limb_count (w L : Int) : Int := -((-w) / L)

/-- The spec's mantissa invariant for a candidate limb width `L`, with the limb
counts the spec derives from it: `L ≥ 1` and
`2L + ⌈log₂(K · min(Sa(L), Sb(L)))⌉ ≤ 53`. -/
def mantissa_bound_holds (k wa wb L : Int) : Prop :=
  1 ≤ L ∧ 2 * L + ceil_log2 (k * min (spec_limb_count wa L) (spec_limb_count wb L)) ≤ 53

instance (k wa wb L : Int) : Decidable (mantissa_bound_holds k wa wb L) := by
  unfold mantissa_bound_holds; infer_instance

/-! ## Planner of `mpmatMultiplyGMPBaseCase` (lines 213-226) -/

/-- The accumulator `c_double[i]` of lines 239-244 after the inner loop has run
for `k = 0, ..., n - 1`: it starts at 0 and receives `a_double[i - k] * b_double[k]`
when `i - k < mpmat_size_a && k < mpmat_size_b`.  The limb arrays are lists of
length `mpmat_size_a`, `mpmat_size_b`. -/
def base_case_accum (a b : List Int) (i n : Nat) : Int :=
  (List.range n).foldl
    (fun acc k =>
      if i - k < a.length ∧ k < b.length then acc + a.getD (i - k) 0 * b.getD k 0 else acc)
    0

/-- The value left in `c_double[i]`: the inner loop runs for `k = 0, ..., i`. -/
def base_case_limb (a b : List Int) (i : Nat) : Int := base_case_accum a b i (i + 1)

/-- The array `c_double` after the loop of lines 238-245, `mpmat_size_c` limbs. -/
def base_case_conv (a b : List Int) (mpmat_size_c : Nat) : List Int :=
  (List.range mpmat_size_c).map (base_case_limb a b)

/-- One `cublasDgemm` call of lines 459-473 seen at one entry of the output
plane, after the first `t` of its `k` inner products: with `alpha = beta = 1`
the entry `c` receives `x 0 * y 0 + ...`, where `x` is the row of the A plane and
`y` the column of the B plane that meet at this entry. -/
def dgemm_entry (t : Nat) (x y : Nat → Int) (c : Int) : Int :=
  (List.range t).foldl (fun acc s => acc + x s * y s) c

/-- The entry of output plane `i` when the loop over `j` of line 458 is over. -/
def gemm_reduced_gpu_entry (k : Nat) (A B : Nat → Nat → Int) (i : Nat) : Int :=
  (List.range (i + 1)).foldl (fun acc j => dgemm_entry k (A j) (B (i - j)) acc) 0

/-! ## Workspace allocator `mpmat::realloc` (lines 48-80) -/

/-- The capacities kept by the workspace.  They are declared in `mpmat.h`; they
are taken to be `size_t` like the arguments of `realloc`. -/
structure Workspace where
  len_a : Nat
  len_b : Nat
  len_c : Nat
  len_t : Nat
  deriving DecidableEq

/-- The workspace before the first call: no buffer allocated. -/
def Workspace.empty : Workspace := ⟨0, 0, 0, 0⟩

/-- The host variant of `realloc`, lines 48-80.  The three buffers grow to the
request when it exceeds the capacity.  The scratch size is stored in
`int mem_t` (line 74), so the maximum of the three `size_t` requests is reduced
to 32 bits; `mem_t > len_t` then compares it as a `size_t`, and
`new mpmat_double[mem_t]` with a negative `mem_t` throws (`none`). -/
def realloc (w : Workspace) (mem_a mem_b mem_c : Nat) : Option Workspace :=
  let len_a := if mem_a > w.len_a then mem_a else w.len_a
  let len_b := if mem_b > w.len_b then mem_b else w.len_b
  let len_c := if mem_c > w.len_c then mem_c else w.len_c
  let mem_t : Int := wrap32 ((max (max mem_a mem_b) mem_c : Nat) : Int)
  if (mem_t % 2 ^ 64).toNat > w.len_t then
    if mem_t < 0 then none
    else some ⟨len_a, len_b, len_c, mem_t.toNat⟩
  else some ⟨len_a, len_b, len_c, w.len_t⟩

/-- The CUDA build's variant of `realloc`, lines 84-113, as far as the
capacities go: the same, with `size_t mem_t` (line 107). -/
def realloc_cuda (w : Workspace) (mem_a mem_b mem_c : Nat) : Option Workspace :=
  let len_a := if mem_a > w.len_a then mem_a else w.len_a
  let len_b := if mem_b > w.len_b then mem_b else w.len_b
  let len_c := if mem_c > w.len_c then mem_c else w.len_c
  let mem_t := max (max mem_a mem_b) mem_c
  if mem_t > w.len_t then some ⟨len_a, len_b, len_c, mem_t⟩
  else some ⟨len_a, len_b, len_c, w.len_t⟩

/-- A sequence of calls `realloc(mem_a, mem_b, mem_c)`, oldest first; it stops
at the first call that throws. -/
def realloc_seq (w : Workspace) (calls : List (Nat × Nat × Nat)) : Option Workspace :=
  calls.foldl (fun acc c => acc.bind fun w' => realloc w' c.1 c.2.1 c.2.2) (some w)

/-- The largest value of a component over a list of requests (0 for no request). -/
def max_request (f : Nat × Nat × Nat → Nat) (calls : List (Nat × Nat × Nat)) : Nat :=
  calls.foldl (fun m c => max m (f c)) 0

/-! ## Transpose resolution and output limb count of `gemm_reduced_gpu` -/

/-- The device chosen for output plane `i` on line 456,
`int gpu_id = i * gpu_count / mpmat_size_c`, in 32 bit `int` arithmetic. -/
def gemm_reduced_gpu_id (i gpu_count mpmat_size_c : Int) : Int :=
  Int.tdiv (wrap32 (i * gpu_count)) mpmat_size_c

/-- The calls of `gemm_reduced_gpu` that name a device. -/
inductive GpuCall where
  /-- lines 443-445: `cudaSetDevice(i)` and the copies into `d_a[i]`, `d_b[i]` -/
  | copyForward (device : Int)
  /-- line 457: `cudaSetDevice(gpu_id)` -/
  | setDevice (device : Int)
  /-- lines 459-473: `cublasDgemm(handles[gpu_id], ..., d_a[gpu_id]+k*m*j, ...,
  d_b[gpu_id]+(i-j)*k*n, ..., d_c[gpu_id]+i*m*n, ...)` -/
  | dgemm (device : Int) (i j : Nat)
  /-- line 475: the copy of plane `i` from `d_c[gpu_id]` to the host -/
  | copyBack (device : Int) (i : Nat)
  deriving DecidableEq

/-- The device a call selects or indexes the per-device arrays with. -/
def GpuCall.device : GpuCall → Int
  | GpuCall.copyForward d => d
  | GpuCall.setDevice d => d
  | GpuCall.dgemm d _ _ => d
  | GpuCall.copyBack d _ => d

/-- The calls issued by lines 441-476, in program order of one thread: the
forward copy loop `for (i = 0; i < gpu_count; ++i)`, then for every output plane
`i < mpmat_size_c` the device selection, the GEMMs for `j = 0, ..., i` and the
copy back. -/
def gemm_reduced_gpu_calls (gpu_count : Int) (mpmat_size_c : Nat) : List GpuCall :=
  (List.range gpu_count.toNat).map (fun (d : Nat) => GpuCall.copyForward (d : Int))
  ++ (List.range mpmat_size_c).flatMap (fun (i : Nat) =>
      [GpuCall.setDevice (gemm_reduced_gpu_id i gpu_count mpmat_size_c)]
      ++ (List.range (i + 1)).map
          (fun (j : Nat) => GpuCall.dgemm (gemm_reduced_gpu_id i gpu_count mpmat_size_c) i j)
      ++ [GpuCall.copyBack (gemm_reduced_gpu_id i gpu_count mpmat_size_c) i])

/-- The buffer size `int mem_a = mpmat_size_a * m * k` of line 398. -/
def gemm_reduced_gpu_mem_a (mpmat_size_a m k : Int) : Int := wrap32 (mpmat_size_a * m * k)

/-- The offset `k*m*j` of the A plane on line 466. -/
def gemm_reduced_gpu_a_offset (m k : Int) (j : Nat) : Int := wrap32 (k * m * j)

/-- The accumulation of lines 726-740 into plane `i`: starting from the content
`C0` of the plane, one `cblas_dgemm` with `alpha = beta = 1` per
`j < i / 2 + i % 2`, adding `A[j] * A[i-j]^T`. -/
def syrk_reduced_gemms {m k : Nat} (A : Nat → Matrix (Fin m) (Fin k) Int)
    (C0 : Matrix (Fin m) (Fin m) Int) (i : Nat) : Matrix (Fin m) (Fin m) Int :=
  (List.range (i / 2 + i % 2)).foldl (fun C j => C + A j * (A (i - j)).transpose) C0

/-- The upper-triangular update of `cblas_dsyrk(CblasColMajor, CblasUpper, ...)`
with `alpha = beta = 1`: entries on and above the diagonal receive `X * X^T`. -/
def dsyrk_upper {m k : Nat} (X : Matrix (Fin m) (Fin k) Int)
    (C : Matrix (Fin m) (Fin m) Int) : Matrix (Fin m) (Fin m) Int :=
  Matrix.of fun r c => if r ≤ c then C r c + (X * X.transpose) r c else C r c

/-- Plane `i` after the schedule of lines 725-756: the GEMMs, the transposed
copy (`mkl_domatcopy`) added back (`cblas_daxpy`), and for even `i` the SYRK
update with `A[i/2]`. -/
def syrk_reduced_plane {m k : Nat} (A : Nat → Matrix (Fin m) (Fin k) Int)
    (C0 : Matrix (Fin m) (Fin m) Int) (i : Nat) : Matrix (Fin m) (Fin m) Int :=
  let G := syrk_reduced_gemms A C0 i
  let C := G + G.transpose
  if i % 2 = 0 then dsyrk_upper (A (i / 2)) C else C

/-- The number of `cblas_dgemm` calls the schedule issues for plane `i`. -/
def syrk_reduced_gemm_count (i : Nat) : Nat := (List.range (i / 2 + i % 2)).length

/-! ## Separators of `parse_SDP` (`parse_SDP.cxx`) -/

/-- The `std::runtime_error`s thrown by `parse_SDP`, by message. -/
inductive ParseError where
  /-- "Could not find 'SDP['" -/
  | noSDP
  /-- "Missing comma after objective" -/
  | missingCommaAfterObjective
  /-- "Missing comma after normalization" -/
  | missingCommaAfterNormalization
  /-- "Missing ']' at end of SDP" -/
  | missingCloseBracket
  deriving DecidableEq

/-- The iterators `parse_SDP` computes, as positions in the text. -/
structure SDPPositions where
  SDP_start : Nat
  end_objective : Nat
  first_comma : Nat
  end_normalization : Nat
  comma : Nat
  end_matrices : Nat
  result : Nat
  deriving DecidableEq

/-- What `parse_SDP` does: throw, or return after having computed its iterators. -/
inductive ParseResult where
  | error (e : ParseError)
  | ok (p : SDPPositions)
  deriving DecidableEq

/-- The call `std::find(first, end, c)`: the position of the first `c` at or after
`first`, or the end of the text. -/
def find_from (text : List Char) (first : Nat) (c : Char) : Nat :=
  first + ((text.drop first).takeWhile (fun x => x != c)).length

/-- The call `std::search(first, end, pattern)`: the first position at or after
`first` where `pattern` starts, or the end of the text. -/
def search_from (text pattern : List Char) (first : Nat) : Nat :=
  match (List.range (text.length - first + 1)).find?
      (fun d => pattern.isPrefixOf (text.drop (first + d))) with
  | some d => first + d
  | none => text.length

/-- The function `parse_SDP`, as far as its iterators and errors go.  The parsers
`parse_vector` and `parse_generic` are declared in headers that are not under
`src/`; they are parameters giving, for a start position, the position where
parsing ended.  Both commas are searched for from `end_objective`
(lines 33 and 46). -/
def parse_SDP (text : List Char) (start : Nat) (parse_vector parse_generic : Nat → Nat) :
    ParseResult :=
  let SDP_start := search_from text ['S', 'D', 'P', '['] start
  if SDP_start = text.length then ParseResult.error ParseError.noSDP
  else
    let end_objective := parse_vector SDP_start
    let first_comma := find_from text end_objective ','
    if first_comma = text.length then ParseResult.error ParseError.missingCommaAfterObjective
    else
      let end_normalization := parse_vector (first_comma + 1)
      let comma := find_from text end_objective ','
      if comma = text.length then ParseResult.error ParseError.missingCommaAfterNormalization
      else
        let end_matrices := parse_generic (comma + 1)
        let close_bracket := find_from text end_matrices ']'
        if close_bracket = text.length then ParseResult.error ParseError.missingCloseBracket
        else
          ParseResult.ok ⟨SDP_start, end_objective, first_comma, end_normalization, comma,
            end_matrices, close_bracket + 1⟩

/-! ## Auxiliary lemmas -/

theorem ceil_log2_loop_eq (n : Nat) : ∀ fuel e : Nat, (∀ e', e' < e → 2 ^ e' < n) →
    n ≤ 2 ^ (e + fuel) → ceil_log2_loop n fuel e = Nat.clog 2 n := by
  intro fuel
  induction fuel with
  | zero =>
    intro e hlow hup
    simp only [ceil_log2_loop]
    apply le_antisymm
    · by_contra hlt
      push_neg at hlt
      have h1 := hlow _ hlt
      have h2 := Nat.le_pow_clog (by norm_num : 1 < 2) n
      omega
    · exact (Nat.le_pow_iff_clog_le (by norm_num)).1 (by simpa using hup)
  | succ fuel ih =>
    intro e hlow hup
    simp only [ceil_log2_loop]
    split
    · rename_i hle
      apply le_antisymm
      · by_contra hlt
        push_neg at hlt
        have h1 := hlow _ hlt
        have h2 := Nat.le_pow_clog (by norm_num : 1 < 2) n
        omega
      · exact (Nat.le_pow_iff_clog_le (by norm_num)).1 hle
    · rename_i hnle
      apply ih
      · intro e' he'
        rcases Nat.lt_succ_iff_lt_or_eq.1 he' with h | h
        · exact hlow e' h
        · subst h; omega
      · have : e + 1 + fuel = e + (fuel + 1) := by omega
        rw [this]; exact hup

theorem ceil_log2_eq_clog (x : Int) : ceil_log2 x = (Nat.clog 2 x.toNat : Nat) := by
  unfold ceil_log2
  congr 1
  apply ceil_log2_loop_eq
  · intro e' he'; omega
  · simpa using (Nat.lt_two_pow x.toNat).le

theorem ceil_log2_nonneg (x : Int) : 0 ≤ ceil_log2 x := by
  rw [ceil_log2_eq_clog]; exact Int.natCast_nonneg _

theorem ceil_log2_le_of_le_pow {x : Int} {e : Nat} (h : x ≤ 2 ^ e) : ceil_log2 x ≤ e := by
  rw [ceil_log2_eq_clog]
  have : x.toNat ≤ 2 ^ e := by
    have : (x.toNat : Int) ≤ (2 ^ e : Nat) := by
      push_cast
      rcases le_or_lt 0 x with h0 | h0
      · rw [Int.toNat_of_nonneg h0]; exact h
      · rw [Int.toNat_eq_zero.2 h0.le]; positivity
    exact_mod_cast this
  exact_mod_cast (Nat.le_pow_iff_clog_le (by norm_num)).1 this

theorem wrap32_lt (x : Int) : wrap32 x < 2 ^ 31 := by
  unfold wrap32
  have := Int.emod_lt_of_pos (x + 2 ^ 31) (by norm_num : (0 : Int) < 2 ^ 32)
  omega

theorem wrap32_ge (x : Int) : -2 ^ 31 ≤ wrap32 x := by
  unfold wrap32
  have := Int.emod_nonneg (x + 2 ^ 31) (by norm_num : (2 ^ 32 : Int) ≠ 0)
  omega

theorem wrap32_eq_self {x : Int} (h0 : -2 ^ 31 ≤ x) (h1 : x < 2 ^ 31) : wrap32 x = x := by
  unfold wrap32
  rw [Int.emod_eq_of_lt (by omega) (by omega)]
  omega


theorem ceil_div_eq_of_pos {a b : Int} (ha : 0 ≤ a) (hb : 1 ≤ b) :
    ceil_div a b = a / b + (if a % b ≠ 0 then 1 else 0) := by
  unfold ceil_div
  rw [Int.tdiv_eq_ediv ha (by omega), Int.tmod_eq_emod ha (by omega)]
  by_cases h : a % b = 0
  · simp [h]
  · have : a > 0 := by
      rcases eq_or_lt_of_le ha with h0 | h0
      · subst h0; simp at h
      · exact h0
    simp [h, this]

theorem ceil_div_mul_ge {a b : Int} (ha : 0 ≤ a) (hb : 1 ≤ b) : a ≤ ceil_div a b * b := by
  rw [ceil_div_eq_of_pos ha hb]
  have h1 := Int.emod_add_ediv a b
  have h2 := Int.emod_lt_of_pos a (by omega : 0 < b)
  have h3 := Int.emod_nonneg a (by omega : b ≠ 0)
  by_cases h : a % b = 0
  · simp only [h, ne_eq, not_true_eq_false, if_false, add_zero]
    nlinarith
  · simp only [h, ne_eq, not_false_eq_true, if_true]
    nlinarith

theorem ceil_div_mul_lt {a b : Int} (ha : 0 ≤ a) (hb : 1 ≤ b) : ceil_div a b * b < a + b := by
  rw [ceil_div_eq_of_pos ha hb]
  have h1 := Int.emod_add_ediv a b
  have h2 := Int.emod_lt_of_pos a (by omega : 0 < b)
  have h3 := Int.emod_nonneg a (by omega : b ≠ 0)
  by_cases h : a % b = 0
  · simp only [h, ne_eq, not_true_eq_false, if_false, add_zero]
    nlinarith
  · simp only [h, ne_eq, not_false_eq_true, if_true]
    have : 0 < a % b := lt_of_le_of_ne h3 (Ne.symm h)
    nlinarith

theorem ceil_div_le_of_le_mul {a b s : Int} (ha : 0 ≤ a) (hb : 1 ≤ b) (h : a ≤ s * b) :
    ceil_div a b ≤ s := by
  by_contra hc
  push_neg at hc
  have h1 := ceil_div_mul_lt ha hb
  have : (s + 1) * b ≤ ceil_div a b * b := by
    apply mul_le_mul_of_nonneg_right (by omega) (by omega)
  nlinarith

theorem ceil_div_nonneg {a b : Int} (ha : 0 ≤ a) (hb : 1 ≤ b) : 0 ≤ ceil_div a b := by
  have h1 := ceil_div_mul_ge ha hb
  by_contra hc
  push_neg at hc
  have : ceil_div a b * b ≤ (-1) * b := mul_le_mul_of_nonneg_right (by omega) (by omega)
  nlinarith

theorem ceil_div_pos {a b : Int} (ha : 0 < a) (hb : 1 ≤ b) : 1 ≤ ceil_div a b := by
  have h1 := ceil_div_mul_ge ha.le hb
  by_contra hc
  push_neg at hc
  have : ceil_div a b * b ≤ 0 * b := mul_le_mul_of_nonneg_right (by omega) (by omega)
  nlinarith

/-- The limb width recomputed by the loop from a product `x` that fits a
32 bit `int`: it lies in `[11, 26]` and is below the width it replaces. -/
theorem next_limb_bounds {x L : Int} (hx : x < 2 ^ 31)
    (hc : 2 * L + ceil_log2 x > MPMAT_DOUBLE_MANT_IMPLICIT) :
    11 ≤ Int.tdiv (MPMAT_DOUBLE_MANT_IMPLICIT - ceil_log2 x) 2 ∧
    Int.tdiv (MPMAT_DOUBLE_MANT_IMPLICIT - ceil_log2 x) 2 < L ∧
    Int.tdiv (MPMAT_DOUBLE_MANT_IMPLICIT - ceil_log2 x) 2 ≤ 26 := by
  have h0 := ceil_log2_nonneg x
  have h31 : ceil_log2 x ≤ (31 : Nat) := ceil_log2_le_of_le_pow (by exact_mod_cast hx.le)
  unfold MPMAT_DOUBLE_MANT_IMPLICIT at *
  rw [Int.tdiv_eq_ediv (by omega) (by omega)]
  push_cast at h31
  omega

theorem gemm_reduced_loop_spec (wrap : Int → Int) (hw : ∀ x, wrap x < 2 ^ 31) (k wa wb : Int) :
    ∀ (fuel : Nat) (L : Int), 11 ≤ L → L < 11 + fuel →
      ∃ L', 11 ≤ L' ∧ L' ≤ L ∧
        gemm_reduced_loop wrap k wa wb fuel L (ceil_div wa L) (ceil_div wb L)
          = PlanResult.done L' (ceil_div wa L') (ceil_div wb L') ∧
        ¬ (0 < wrap (k * min (ceil_div wa L') (ceil_div wb L')) ∧
            2 * L' + ceil_log2 (wrap (k * min (ceil_div wa L') (ceil_div wb L')))
              > MPMAT_DOUBLE_MANT_IMPLICIT) := by
  intro fuel
  induction fuel with
  | zero => intro L h1 h2; omega
  | succ fuel ih =>
    intro L h1 h2
    by_cases hc : 0 < wrap (k * min (ceil_div wa L) (ceil_div wb L)) ∧
            2 * L + ceil_log2 (wrap (k * min (ceil_div wa L) (ceil_div wb L)))
              > MPMAT_DOUBLE_MANT_IMPLICIT
    · obtain ⟨hb1, hb2, _⟩ := next_limb_bounds (hw _) hc.2
      obtain ⟨L', hL1, hL2, heq, hex⟩ := ih _ hb1 (by push_cast at h2 ⊢; omega)
      refine ⟨L', hL1, by omega, ?_, hex⟩
      rw [gemm_reduced_loop]
      simp only [hc, and_self, if_true]
      rw [if_neg (by omega)]
      exact heq
    · refine ⟨L, h1, le_refl _, ?_, hc⟩
      rw [gemm_reduced_loop]
      simp only [hc, if_false]

theorem gemm_reduced_plan_with_spec (wrap : Int → Int) (hw : ∀ x, wrap x < 2 ^ 31)
    (k prec_a prec_b : Int) (hk : 1 ≤ k) (hk' : k < 2 ^ 31) :
    ∃ L, 11 ≤ L ∧ L ≤ 26 ∧
      gemm_reduced_plan_with wrap 64 k prec_a prec_b
        = PlanResult.done L (ceil_div (operand_bits wrap prec_a) L)
            (ceil_div (operand_bits wrap prec_b) L) ∧
      ¬ (0 < wrap (k * min (ceil_div (operand_bits wrap prec_a) L)
                        (ceil_div (operand_bits wrap prec_b) L)) ∧
          2 * L + ceil_log2 (wrap (k * min (ceil_div (operand_bits wrap prec_a) L)
                        (ceil_div (operand_bits wrap prec_b) L)))
            > MPMAT_DOUBLE_MANT_IMPLICIT) := by
  have h0 := ceil_log2_nonneg k
  have h31 : ceil_log2 k ≤ (31 : Nat) := ceil_log2_le_of_le_pow (by exact_mod_cast hk'.le)
  push_cast at h31
  have hL0 : 11 ≤ Int.tdiv (MPMAT_DOUBLE_MANT_IMPLICIT - ceil_log2 k) 2 ∧
      Int.tdiv (MPMAT_DOUBLE_MANT_IMPLICIT - ceil_log2 k) 2 ≤ 26 := by
    unfold MPMAT_DOUBLE_MANT_IMPLICIT
    rw [Int.tdiv_eq_ediv (by omega) (by omega)]
    omega
  obtain ⟨L', h1, h2, heq, hex⟩ := gemm_reduced_loop_spec wrap hw k
    (operand_bits wrap prec_a) (operand_bits wrap prec_b) 64 _ hL0.1 (by push_cast; omega)
  refine ⟨L', h1, by omega, ?_, hex⟩
  unfold gemm_reduced_plan_with
  rw [if_neg (by omega)]
  simp only []
  rw [if_neg (by omega)]
  exact heq


theorem operand_bits_wrap32 {prec : Int} (h0 : 0 ≤ prec)
    (h1 : (prec + 1) * mp_bits_per_limb < 2 ^ 31) :
    operand_bits wrap32 prec = (prec + 1) * mp_bits_per_limb := by
  unfold operand_bits
  rw [abs_of_nonneg (by omega)]
  unfold mp_bits_per_limb at *
  exact wrap32_eq_self (by omega) h1

theorem ceil_div_anti {a b c : Int} (ha : 0 ≤ a) (hb : 1 ≤ b) (hbc : b ≤ c) :
    ceil_div a c ≤ ceil_div a b := by
  apply ceil_div_le_of_le_mul ha (by omega)
  have h1 := ceil_div_mul_ge ha hb
  have h2 := ceil_div_nonneg ha hb
  have : ceil_div a b * b ≤ ceil_div a b * c := mul_le_mul_of_nonneg_left hbc h2
  omega

theorem ceil_div_mono {a a' b : Int} (ha : 0 ≤ a) (haa : a ≤ a') (hb : 1 ≤ b) :
    ceil_div a b ≤ ceil_div a' b := by
  apply ceil_div_le_of_le_mul ha hb
  have h1 := ceil_div_mul_ge (le_trans ha haa) hb
  omega

theorem min_ceil_div_le {wa wb L : Int} (ha : 0 ≤ wa) (hb : 0 ≤ wb) (hL : 11 ≤ L) :
    min (ceil_div wa L) (ceil_div wb L) ≤ ceil_div (min wa wb) 11 := by
  rcases le_total wa wb with h | h
  · rw [min_eq_left h]
    exact le_trans (min_le_left _ _) (ceil_div_anti ha (by norm_num) hL)
  · rw [min_eq_right h]
    exact le_trans (min_le_right _ _) (ceil_div_anti hb (by norm_num) hL)

theorem gemm_reduced_loop_counts (wrap : Int → Int) (k wa wb : Int) :
    ∀ (fuel : Nat) (L Sa Sb L' Sa' Sb' : Int), Sa = ceil_div wa L → Sb = ceil_div wb L →
      gemm_reduced_loop wrap k wa wb fuel L Sa Sb = PlanResult.done L' Sa' Sb' →
      Sa' = ceil_div wa L' ∧ Sb' = ceil_div wb L' := by
  intro fuel
  induction fuel with
  | zero => intro L Sa Sb L' Sa' Sb' _ _ h; simp [gemm_reduced_loop] at h
  | succ fuel ih =>
    intro L Sa Sb L' Sa' Sb' hSa hSb h
    rw [gemm_reduced_loop] at h
    simp only [] at h
    split at h
    · split at h
      · exact absurd h (by simp)
      · exact ih _ _ _ _ _ _ rfl rfl h
    · injection h with h1 h2 h3
      subst h1 h2 h3
      exact ⟨hSa, hSb⟩

theorem gemm_reduced_plan_counts (wrap : Int → Int) (fuel : Nat) (k prec_a prec_b L Sa Sb : Int)
    (h : gemm_reduced_plan_with wrap fuel k prec_a prec_b = PlanResult.done L Sa Sb) :
    Sa = ceil_div (operand_bits wrap prec_a) L ∧ Sb = ceil_div (operand_bits wrap prec_b) L := by
  unfold gemm_reduced_plan_with at h
  split at h
  · exact absurd h (by simp)
  · simp only [] at h
    split at h
    · exact absurd h (by simp)
    · exact gemm_reduced_loop_counts wrap k _ _ fuel _ _ _ _ _ _ rfl rfl h

theorem ceil_div_eq_ceil {w L : Int} (hw : 0 ≤ w) (hL : 1 ≤ L) :
    ceil_div w L = ⌈(w : ℚ) / (L : ℚ)⌉ := by
  symm
  rw [Int.ceil_eq_iff]
  have hLq : (0 : ℚ) < (L : ℚ) := by exact_mod_cast (by omega : (0 : Int) < L)
  have h1 : ((ceil_div w L * L : Int) : ℚ) < ((w + L : Int) : ℚ) := by
    exact_mod_cast ceil_div_mul_lt hw hL
  have h2 : ((w : Int) : ℚ) ≤ ((ceil_div w L * L : Int) : ℚ) := by
    exact_mod_cast ceil_div_mul_ge hw hL
  push_cast at h1 h2
  constructor
  · rw [lt_div_iff₀ hLq]; linarith
  · rw [div_le_iff₀ hLq]; exact h2

theorem base_case_accum_eq_sum (a b : List Int) (i n : Nat) :
    base_case_accum a b i n
      = Finset.sum (Finset.range n) fun k => a.getD (i - k) 0 * b.getD k 0 := by
  unfold base_case_accum
  induction n with
  | zero => simp
  | succ n ih =>
    rw [List.range_succ, List.foldl_append, ih, Finset.sum_range_succ]
    simp only [List.foldl_cons, List.foldl_nil]
    split
    · rfl
    · rename_i h
      have : a.getD (i - n) 0 * b.getD n 0 = 0 := by
        by_cases h1 : i - n < a.length
        · have h2 : b.length ≤ n := by
            by_contra hc; exact h ⟨h1, by omega⟩
          rw [List.getD_eq_default _ _ h2]; simp
        · rw [List.getD_eq_default _ _ (by omega)]; simp
      rw [this]; simp

theorem base_case_limb_eq_sum (a b : List Int) (i : Nat) :
    base_case_limb a b i
      = Finset.sum (Finset.range (i + 1)) fun j => a.getD j 0 * b.getD (i - j) 0 := by
  unfold base_case_limb
  rw [base_case_accum_eq_sum]
  rw [← Finset.sum_range_reflect]
  apply Finset.sum_congr rfl
  intro j hj
  have hj' : j < i + 1 := Finset.mem_range.1 hj
  have h1 : i + 1 - 1 - j = i - j := by omega
  have h2 : i - (i - j) = j := by omega
  rw [h1, h2]

theorem base_case_conv_getD (a b : List Int) (Sc i : Nat) (hi : i < Sc) :
    (base_case_conv a b Sc).getD i 0 = base_case_limb a b i := by
  unfold base_case_conv
  rw [List.getD_eq_getElem _ _ (by simpa using hi)]
  simp

theorem limb_poly_coeff (a : List Int) (n : Nat) :
    Polynomial.coeff (Finset.sum (Finset.range a.length) fun s =>
        Polynomial.C (a.getD s 0) * Polynomial.X ^ s) n = a.getD n 0 := by
  rw [Polynomial.finset_sum_coeff]
  simp only [Polynomial.coeff_C_mul_X_pow]
  rw [Finset.sum_ite_eq]
  split
  · rfl
  · rename_i h
    rw [List.getD_eq_default _ _ (by simpa using h)]

theorem dgemm_entry_eq_sum (t : Nat) (x y : Nat → Int) (c : Int) :
    dgemm_entry t x y c = c + Finset.sum (Finset.range t) fun s => x s * y s := by
  unfold dgemm_entry
  induction t with
  | zero => simp
  | succ t ih =>
    rw [List.range_succ, List.foldl_append, ih, Finset.sum_range_succ]
    simp only [List.foldl_cons, List.foldl_nil]
    ring

theorem gemm_fold_eq_sum (k : Nat) (A B : Nat → Nat → Int) (i n : Nat) :
    (List.range n).foldl (fun acc j => dgemm_entry k (A j) (B (i - j)) acc) 0
      = Finset.sum (Finset.range n) fun j =>
          Finset.sum (Finset.range k) fun s => A j s * B (i - j) s := by
  induction n with
  | zero => simp
  | succ n ih =>
    rw [List.range_succ, List.foldl_append, ih, Finset.sum_range_succ]
    simp only [List.foldl_cons, List.foldl_nil]
    rw [dgemm_entry_eq_sum]

theorem gemm_reduced_gpu_entry_eq_sum (k : Nat) (A B : Nat → Nat → Int) (i : Nat) :
    gemm_reduced_gpu_entry k A B i
      = Finset.sum (Finset.range (i + 1)) fun j =>
          Finset.sum (Finset.range k) fun s => A j s * B (i - j) s := by
  unfold gemm_reduced_gpu_entry
  exact gemm_fold_eq_sum k A B i (i + 1)

theorem foldl_max_init (f : Nat × Nat × Nat → Nat) (calls : List (Nat × Nat × Nat)) :
    ∀ m : Nat, calls.foldl (fun m c => max m (f c)) m = max m (max_request f calls) := by
  unfold max_request
  induction calls with
  | nil => intro m; simp
  | cons c rest ih =>
    intro m
    simp only [List.foldl_cons]
    rw [ih (max m (f c)), ih (max 0 (f c))]
    simp only [Nat.zero_max]
    rw [max_assoc]

theorem max_request_cons (f : Nat × Nat × Nat → Nat) (c : Nat × Nat × Nat)
    (rest : List (Nat × Nat × Nat)) :
    max_request f (c :: rest) = max (f c) (max_request f rest) := by
  have h := foldl_max_init f rest (max 0 (f c))
  simp only [Nat.zero_max] at h
  unfold max_request at h ⊢
  simp only [List.foldl_cons, Nat.zero_max]
  exact h

theorem ite_gt_eq_max (x y : Nat) : (if x > y then x else y) = max y x := by
  split
  · rw [max_eq_right]; omega
  · rw [max_eq_left]; omega

theorem realloc_small (w : Workspace) (mem_a mem_b mem_c : Nat)
    (ha : mem_a < 2 ^ 31) (hb : mem_b < 2 ^ 31) (hc : mem_c < 2 ^ 31) :
    realloc w mem_a mem_b mem_c
      = some ⟨max w.len_a mem_a, max w.len_b mem_b, max w.len_c mem_c,
          max w.len_t (max (max mem_a mem_b) mem_c)⟩ := by
  have hm : max (max mem_a mem_b) mem_c < 2 ^ 31 := by
    rcases max_cases (max mem_a mem_b) mem_c with h | h <;>
      rcases max_cases mem_a mem_b with h' | h' <;> omega
  unfold realloc
  simp only []
  rw [ite_gt_eq_max, ite_gt_eq_max, ite_gt_eq_max]
  generalize max (max mem_a mem_b) mem_c = m at hm ⊢
  have hw : wrap32 (m : Int) = (m : Int) := wrap32_eq_self (by omega) (by exact_mod_cast hm)
  rw [hw]
  have hmod : ((m : Int) % 2 ^ 64).toNat = m := by
    rw [Int.emod_eq_of_lt (by omega) (by omega)]
    exact Int.toNat_ofNat m
  rw [hmod]
  by_cases h : m > w.len_t
  · rw [if_pos h, if_neg (by omega), Int.toNat_ofNat, max_eq_right (le_of_lt h)]
  · rw [if_neg h, max_eq_left (show m ≤ w.len_t by omega)]

theorem realloc_never_shrinks (w w' : Workspace) (mem_a mem_b mem_c : Nat)
    (h : realloc w mem_a mem_b mem_c = some w') :
    w.len_a ≤ w'.len_a ∧ w.len_b ≤ w'.len_b ∧ w.len_c ≤ w'.len_c ∧ w.len_t ≤ w'.len_t := by
  unfold realloc at h
  simp only [] at h
  rw [ite_gt_eq_max, ite_gt_eq_max, ite_gt_eq_max] at h
  generalize wrap32 ((max (max mem_a mem_b) mem_c : Nat) : Int) = mem_t at h
  by_cases hgt : (mem_t % 2 ^ 64).toNat > w.len_t
  · rw [if_pos hgt] at h
    by_cases hneg : mem_t < 0
    · rw [if_pos hneg] at h
      exact absurd h (by simp)
    · rw [if_neg hneg] at h
      injection h with h
      subst h
      have hle : mem_t % 2 ^ 64 ≤ mem_t := by omega
      have hto : (mem_t % 2 ^ 64).toNat ≤ mem_t.toNat := Int.toNat_le_toNat hle
      exact ⟨le_max_left _ _, le_max_left _ _, le_max_left _ _,
        le_trans (le_of_lt hgt) hto⟩
  · rw [if_neg hgt] at h
    injection h with h
    subst h
    exact ⟨le_max_left _ _, le_max_left _ _, le_max_left _ _, le_refl _⟩

/-- For requests below `2^31` a sequence of calls leaves every capacity at the
maximum of its old value and of the requests made. -/
theorem realloc_seq_small (calls : List (Nat × Nat × Nat)) :
    ∀ w : Workspace, (∀ c ∈ calls, c.1 < 2 ^ 31 ∧ c.2.1 < 2 ^ 31 ∧ c.2.2 < 2 ^ 31) →
      realloc_seq w calls
        = some ⟨max w.len_a (max_request (fun c => c.1) calls),
            max w.len_b (max_request (fun c => c.2.1) calls),
            max w.len_c (max_request (fun c => c.2.2) calls),
            max w.len_t (max_request (fun c => max (max c.1 c.2.1) c.2.2) calls)⟩ := by
  induction calls with
  | nil =>
    intro w _
    have h0 : ∀ f : Nat × Nat × Nat → Nat, max_request f [] = 0 := fun f => rfl
    rw [h0, h0, h0, h0]
    simp only [realloc_seq, List.foldl_nil, Nat.max_zero]
  | cons c rest ih =>
    intro w h
    obtain ⟨mem_a, mem_b, mem_c⟩ := c
    have hc := h (mem_a, mem_b, mem_c) (List.mem_cons_self _ _)
    have hstep : realloc_seq w ((mem_a, mem_b, mem_c) :: rest)
        = realloc_seq ⟨max w.len_a mem_a, max w.len_b mem_b, max w.len_c mem_c,
            max w.len_t (max (max mem_a mem_b) mem_c)⟩ rest := by
      unfold realloc_seq
      rw [List.foldl_cons, Option.some_bind,
        realloc_small w mem_a mem_b mem_c hc.1 hc.2.1 hc.2.2]
    rw [hstep, ih _ (fun c hc => h c (List.mem_cons_of_mem _ hc))]
    rw [max_request_cons, max_request_cons, max_request_cons, max_request_cons]
    simp only [max_assoc]

theorem spec_limb_count_eq_ceil_div {w L : Int} (hw : 0 ≤ w) (hL : 1 ≤ L) :
    spec_limb_count w L = ceil_div w L := by
  unfold spec_limb_count
  apply le_antisymm
  · have h1 := ceil_div_mul_ge hw hL
    have h2 : -(ceil_div w L) ≤ (-w) / L := by
      rw [Int.le_ediv_iff_mul_le (by omega)]
      linarith
    omega
  · apply ceil_div_le_of_le_mul hw hL
    have h3 : (-w) / L * L ≤ -w := Int.ediv_mul_le _ (by omega)
    linarith

theorem ceil_log2_mono {x y : Int} (h : x ≤ y) : ceil_log2 x ≤ ceil_log2 y := by
  rw [ceil_log2_eq_clog, ceil_log2_eq_clog]
  exact_mod_cast Nat.clog_mono_right 2 (Int.toNat_le_toNat h)

/-- For a feasible width `L'` and a width `L ≥ L'`, the width the planner
computes from `L` is still at least `L'`. -/
theorem feasible_le_next {k wa wb L L' : Int} (hk : 1 ≤ k) (hwa : 0 ≤ wa) (hwb : 0 ≤ wb)
    (hf : mantissa_bound_holds k wa wb L') (hle : L' ≤ L) :
    L' ≤ Int.tdiv (MPMAT_DOUBLE_MANT_IMPLICIT
      - ceil_log2 (k * min (ceil_div wa L) (ceil_div wb L))) 2 := by
  obtain ⟨h1, h2⟩ := hf
  rw [spec_limb_count_eq_ceil_div hwa h1, spec_limb_count_eq_ceil_div hwb h1] at h2
  have ha := ceil_div_anti hwa h1 hle
  have hb := ceil_div_anti hwb h1 hle
  have hmin : min (ceil_div wa L) (ceil_div wb L) ≤ min (ceil_div wa L') (ceil_div wb L') :=
    min_le_min ha hb
  have hmono := ceil_log2_mono (mul_le_mul_of_nonneg_left hmin (by omega : 0 ≤ k))
  unfold MPMAT_DOUBLE_MANT_IMPLICIT
  rw [Int.tdiv_eq_ediv (by omega) (by omega)]
  omega

theorem gemm_reduced_loop_largest (k wa wb : Int) (hk : 1 ≤ k) (hwa : 0 < wa) (hwb : 0 < wb) :
    ∀ (fuel : Nat) (L Lf Sa Sb : Int),
      (∀ L', mantissa_bound_holds k wa wb L' → L' ≤ L) →
      gemm_reduced_loop id k wa wb fuel L (ceil_div wa L) (ceil_div wb L)
        = PlanResult.done Lf Sa Sb →
      1 ≤ Lf →
      mantissa_bound_holds k wa wb Lf ∧ ∀ L', mantissa_bound_holds k wa wb L' → L' ≤ Lf := by
  intro fuel
  induction fuel with
  | zero => intro L Lf Sa Sb _ h; simp [gemm_reduced_loop] at h
  | succ fuel ih =>
    intro L Lf Sa Sb hP h hLf
    rw [gemm_reduced_loop] at h
    simp only [id] at h
    split at h
    · split at h
      · exact absurd h (by simp)
      · refine ih _ Lf Sa Sb ?_ h hLf
        intro L' hf
        exact feasible_le_next hk hwa.le hwb.le hf (hP L' hf)
    · rename_i hc
      injection h with h1 h2 h3
      subst h1
      refine ⟨⟨hLf, ?_⟩, hP⟩
      rw [spec_limb_count_eq_ceil_div hwa.le hLf, spec_limb_count_eq_ceil_div hwb.le hLf]
      have hSa := ceil_div_pos hwa hLf
      have hSb := ceil_div_pos hwb hLf
      have hpos : 0 < k * min (ceil_div wa L) (ceil_div wb L) :=
        mul_pos (by omega) (lt_of_lt_of_le (by norm_num) (le_min hSa hSb))
      unfold MPMAT_DOUBLE_MANT_IMPLICIT at hc
      by_contra hcon
      exact hc ⟨hpos, by omega⟩

/-- Over unbounded integers the loop of the planner is optimal: whenever it
ends with a limb width `L ≥ 1`, that width satisfies the mantissa bound and no
larger width does. -/
theorem gemm_reduced_plan_unbounded_largest (fuel : Nat) (k prec_a prec_b L Sa Sb : Int)
    (hk : 1 ≤ k) (ha : 0 ≤ prec_a) (hb : 0 ≤ prec_b)
    (h : gemm_reduced_plan_with id fuel k prec_a prec_b = PlanResult.done L Sa Sb)
    (hL : 1 ≤ L) :
    mantissa_bound_holds k ((prec_a + 1) * mp_bits_per_limb) ((prec_b + 1) * mp_bits_per_limb) L ∧
    (∀ L', mantissa_bound_holds k ((prec_a + 1) * mp_bits_per_limb)
        ((prec_b + 1) * mp_bits_per_limb) L' → L' ≤ L) ∧
    Sa = spec_limb_count ((prec_a + 1) * mp_bits_per_limb) L ∧
    Sb = spec_limb_count ((prec_b + 1) * mp_bits_per_limb) L := by
  have hwa : operand_bits id prec_a = (prec_a + 1) * mp_bits_per_limb := by
    unfold operand_bits; rw [abs_of_nonneg (by omega)]; rfl
  have hwb : operand_bits id prec_b = (prec_b + 1) * mp_bits_per_limb := by
    unfold operand_bits; rw [abs_of_nonneg (by omega)]; rfl
  have hpa : 0 < (prec_a + 1) * mp_bits_per_limb := by unfold mp_bits_per_limb; omega
  have hpb : 0 < (prec_b + 1) * mp_bits_per_limb := by unfold mp_bits_per_limb; omega
  obtain ⟨hSa, hSb⟩ := gemm_reduced_plan_counts id fuel k prec_a prec_b L Sa Sb h
  rw [hwa] at hSa
  rw [hwb] at hSb
  unfold gemm_reduced_plan_with at h
  rw [if_neg (by omega)] at h
  simp only [] at h
  split at h
  · exact absurd h (by simp)
  · rw [hwa, hwb] at h
    have hinit : ∀ L', mantissa_bound_holds k ((prec_a + 1) * mp_bits_per_limb)
        ((prec_b + 1) * mp_bits_per_limb) L' →
        L' ≤ Int.tdiv (MPMAT_DOUBLE_MANT_IMPLICIT - ceil_log2 k) 2 := by
      intro L' hf
      obtain ⟨h1, h2⟩ := hf
      rw [spec_limb_count_eq_ceil_div hpa.le h1, spec_limb_count_eq_ceil_div hpb.le h1] at h2
      have hmin : 1 ≤ min (ceil_div ((prec_a + 1) * mp_bits_per_limb) L')
          (ceil_div ((prec_b + 1) * mp_bits_per_limb) L') :=
        le_min (ceil_div_pos hpa h1) (ceil_div_pos hpb h1)
      have hkle : k ≤ k * min (ceil_div ((prec_a + 1) * mp_bits_per_limb) L')
          (ceil_div ((prec_b + 1) * mp_bits_per_limb) L') := by nlinarith
      have hmono := ceil_log2_mono hkle
      have h0 := ceil_log2_nonneg k
      unfold MPMAT_DOUBLE_MANT_IMPLICIT
      rw [Int.tdiv_eq_ediv (by omega) (by omega)]
      omega
    obtain ⟨r1, r2⟩ := gemm_reduced_loop_largest k _ _ hk hpa hpb fuel _ L Sa Sb hinit h hL
    exact ⟨r1, r2, by rw [spec_limb_count_eq_ceil_div hpa.le hL]; exact hSa,
      by rw [spec_limb_count_eq_ceil_div hpb.le hL]; exact hSb⟩

theorem gemm_reduced_gpu_id_eq {i gpu_count Sc : Int} (hi : 0 ≤ i) (hg : 0 ≤ gpu_count)
    (hSc : 1 ≤ Sc) (hr : i * gpu_count < 2 ^ 31) :
    gemm_reduced_gpu_id i gpu_count Sc = i * gpu_count / Sc := by
  unfold gemm_reduced_gpu_id
  have h0 : 0 ≤ i * gpu_count := mul_nonneg hi hg
  rw [wrap32_eq_self (by omega) hr, Int.tdiv_eq_ediv h0 (by omega)]

theorem gemm_reduced_gpu_id_zero (i Sc : Int) : gemm_reduced_gpu_id i 0 Sc = 0 := by
  unfold gemm_reduced_gpu_id
  rw [mul_zero]
  have : wrap32 0 = 0 := by decide
  rw [this, Int.zero_tdiv]

theorem mem_gemm_reduced_gpu_calls (gpu_count : Int) (Sc : Nat) (c : GpuCall) :
    c ∈ gemm_reduced_gpu_calls gpu_count Sc ↔
      (∃ d, d < gpu_count.toNat ∧ c = GpuCall.copyForward (d : Int)) ∨
      (∃ i, i < Sc ∧
        (c = GpuCall.setDevice (gemm_reduced_gpu_id i gpu_count Sc) ∨
         (∃ j, j ≤ i ∧ c = GpuCall.dgemm (gemm_reduced_gpu_id i gpu_count Sc) i j) ∨
         c = GpuCall.copyBack (gemm_reduced_gpu_id i gpu_count Sc) i)) := by
  unfold gemm_reduced_gpu_calls
  rw [List.mem_append, List.mem_map, List.mem_flatMap]
  constructor
  · rintro (⟨d, hd, rfl⟩ | ⟨i, hi, h⟩)
    · exact Or.inl ⟨d, List.mem_range.1 hd, rfl⟩
    · refine Or.inr ⟨i, List.mem_range.1 hi, ?_⟩
      rw [List.mem_append, List.mem_append, List.mem_singleton, List.mem_singleton,
        List.mem_map] at h
      rcases h with (h | ⟨j, hj, rfl⟩) | h
      · exact Or.inl h
      · exact Or.inr (Or.inl ⟨j, by have := List.mem_range.1 hj; omega, rfl⟩)
      · exact Or.inr (Or.inr h)
  · rintro (⟨d, hd, rfl⟩ | ⟨i, hi, h⟩)
    · exact Or.inl ⟨d, List.mem_range.2 hd, rfl⟩
    · refine Or.inr ⟨i, List.mem_range.2 hi, ?_⟩
      rw [List.mem_append, List.mem_append, List.mem_singleton, List.mem_singleton,
        List.mem_map]
      rcases h with h | ⟨j, hj, rfl⟩ | h
      · exact Or.inl (Or.inl h)
      · exact Or.inl (Or.inr ⟨j, List.mem_range.2 (by omega), rfl⟩)
      · exact Or.inr h

/-- One executed iteration of the planner loop as compiled: the new limb width
is in `[11, L)` and the limb count of an operand with `w ≥ 0` bits does not
decrease. -/
theorem gemm_reduced_loop_step (wrap : Int → Int) (hw : ∀ x, wrap x < 2 ^ 31)
    (k w L Sa Sb : Int) (hw0 : 0 ≤ w)
    (hc : 0 < wrap (k * min Sa Sb) ∧
      2 * L + ceil_log2 (wrap (k * min Sa Sb)) > MPMAT_DOUBLE_MANT_IMPLICIT) :
    11 ≤ Int.tdiv (MPMAT_DOUBLE_MANT_IMPLICIT - ceil_log2 (wrap (k * min Sa Sb))) 2 ∧
    Int.tdiv (MPMAT_DOUBLE_MANT_IMPLICIT - ceil_log2 (wrap (k * min Sa Sb))) 2 < L ∧
    ceil_div w L ≤ ceil_div w
      (Int.tdiv (MPMAT_DOUBLE_MANT_IMPLICIT - ceil_log2 (wrap (k * min Sa Sb))) 2) := by
  obtain ⟨h1, h2, _⟩ := next_limb_bounds (hw _) hc.2
  exact ⟨h1, h2, ceil_div_anti hw0 (by omega) h2.le⟩

theorem gemm_reduced_loop_fuel_mono (wrap : Int → Int) (k wa wb : Int) :
    ∀ (fuel n : Nat) (L Sa Sb L' Sa' Sb' : Int),
      gemm_reduced_loop wrap k wa wb fuel L Sa Sb = PlanResult.done L' Sa' Sb' →
      gemm_reduced_loop wrap k wa wb (fuel + n) L Sa Sb = PlanResult.done L' Sa' Sb' := by
  intro fuel
  induction fuel with
  | zero => intro n L Sa Sb L' Sa' Sb' h; simp [gemm_reduced_loop] at h
  | succ fuel ih =>
    intro n L Sa Sb L' Sa' Sb' h
    have hadd : fuel + 1 + n = (fuel + n) + 1 := by omega
    rw [hadd]
    rw [gemm_reduced_loop] at h ⊢
    simp only [] at h ⊢
    split
    · rename_i hc
      rw [if_pos hc] at h
      split
      · rename_i h0
        rw [if_pos h0] at h
        exact absurd h (by simp)
      · rename_i h0
        rw [if_neg h0] at h
        exact ih n _ _ _ _ _ _ h
    · rename_i hc
      rw [if_neg hc] at h
      exact h

/-- The planner as compiled, run with any fuel above `L0 - 11`, where
`L0 = (53 - ⌈log₂ k⌉)/2` is the initial width, ends normally. -/
theorem gemm_reduced_plan_with_fuel (wrap : Int → Int) (hw : ∀ x, wrap x < 2 ^ 31)
    (fuel : Nat) (k prec_a prec_b : Int) (hk : 1 ≤ k) (hk' : k < 2 ^ 31)
    (hf : Int.tdiv (MPMAT_DOUBLE_MANT_IMPLICIT - ceil_log2 k) 2 < 11 + fuel) :
    ∃ L, 11 ≤ L ∧ L ≤ Int.tdiv (MPMAT_DOUBLE_MANT_IMPLICIT - ceil_log2 k) 2 ∧
      gemm_reduced_plan_with wrap fuel k prec_a prec_b
        = PlanResult.done L (ceil_div (operand_bits wrap prec_a) L)
            (ceil_div (operand_bits wrap prec_b) L) := by
  have h0 := ceil_log2_nonneg k
  have h31 : ceil_log2 k ≤ (31 : Nat) := ceil_log2_le_of_le_pow (by exact_mod_cast hk'.le)
  push_cast at h31
  have hL0 : 11 ≤ Int.tdiv (MPMAT_DOUBLE_MANT_IMPLICIT - ceil_log2 k) 2 := by
    unfold MPMAT_DOUBLE_MANT_IMPLICIT
    rw [Int.tdiv_eq_ediv (by omega) (by omega)]
    omega
  obtain ⟨L', h1, h2, heq, _⟩ := gemm_reduced_loop_spec wrap hw k
    (operand_bits wrap prec_a) (operand_bits wrap prec_b) fuel _ hL0 hf
  refine ⟨L', h1, h2, ?_⟩
  unfold gemm_reduced_plan_with
  rw [if_neg (by omega)]
  simp only []
  rw [if_neg (by omega)]
  exact heq

/-- Convergence of the planner loop as compiled: for `1 ≤ k < 2^31` the loop
started at `L0 = (53 - ⌈log₂ k⌉)/2` needs at most `L0` iterations (fuel
`L0 + 1`), ends with a width in `[11, L0]`, and more fuel does not change the
result. -/
theorem gemm_reduced_plan_converges (k prec_a prec_b : Int) (hk : 1 ≤ k) (hk' : k < 2 ^ 31) :
    ∃ L, 11 ≤ L ∧ L ≤ Int.tdiv (MPMAT_DOUBLE_MANT_IMPLICIT - ceil_log2 k) 2 ∧
      gemm_reduced_plan_with wrap32
          ((Int.tdiv (MPMAT_DOUBLE_MANT_IMPLICIT - ceil_log2 k) 2).toNat + 1) k prec_a prec_b
        = PlanResult.done L (ceil_div (operand_bits wrap32 prec_a) L)
            (ceil_div (operand_bits wrap32 prec_b) L) ∧
      gemm_reduced_plan k prec_a prec_b
        = PlanResult.done L (ceil_div (operand_bits wrap32 prec_a) L)
            (ceil_div (operand_bits wrap32 prec_b) L) := by
  obtain ⟨L, h1, h2, heq⟩ := gemm_reduced_plan_with_fuel wrap32 wrap32_lt
    ((Int.tdiv (MPMAT_DOUBLE_MANT_IMPLICIT - ceil_log2 k) 2).toNat + 1) k prec_a prec_b hk hk'
    (by push_cast; omega)
  refine ⟨L, h1, h2, heq, ?_⟩
  have h0 := ceil_log2_nonneg k
  have h31 : ceil_log2 k ≤ (31 : Nat) := ceil_log2_le_of_le_pow (by exact_mod_cast hk'.le)
  push_cast at h31
  have hL0 : Int.tdiv (MPMAT_DOUBLE_MANT_IMPLICIT - ceil_log2 k) 2 ≤ 26 ∧
      11 ≤ Int.tdiv (MPMAT_DOUBLE_MANT_IMPLICIT - ceil_log2 k) 2 := by
    unfold MPMAT_DOUBLE_MANT_IMPLICIT
    rw [Int.tdiv_eq_ediv (by omega) (by omega)]
    omega
  have hfuel : (Int.tdiv (MPMAT_DOUBLE_MANT_IMPLICIT - ceil_log2 k) 2).toNat + 1
      + (63 - (Int.tdiv (MPMAT_DOUBLE_MANT_IMPLICIT - ceil_log2 k) 2).toNat) = 64 := by omega
  unfold gemm_reduced_plan
  unfold gemm_reduced_plan_with at heq ⊢
  rw [if_neg (by omega)] at heq ⊢
  simp only [] at heq ⊢
  rw [if_neg (by omega)] at heq ⊢
  rw [← hfuel]
  exact gemm_reduced_loop_fuel_mono wrap32 k _ _ _ _ _ _ _ _ _ _ heq

theorem gemm_reduced_loop_eq_unbounded (k wa wb : Int) (hk : 1 ≤ k) (hwa : 0 ≤ wa) (hwb : 0 ≤ wb)
    (hr : k * ceil_div (min wa wb) 11 < 2 ^ 31) :
    ∀ (fuel : Nat) (L : Int), 11 ≤ L →
      gemm_reduced_loop wrap32 k wa wb fuel L (ceil_div wa L) (ceil_div wb L)
        = gemm_reduced_loop id k wa wb fuel L (ceil_div wa L) (ceil_div wb L) := by
  intro fuel
  induction fuel with
  | zero => intro L _; rfl
  | succ fuel ih =>
    intro L hL
    have hx0 : 0 ≤ k * min (ceil_div wa L) (ceil_div wb L) :=
      mul_nonneg (by omega)
        (le_min (ceil_div_nonneg hwa (by omega)) (ceil_div_nonneg hwb (by omega)))
    have hx1 : k * min (ceil_div wa L) (ceil_div wb L) < 2 ^ 31 := by
      have := mul_le_mul_of_nonneg_left (min_ceil_div_le hwa hwb hL) (by omega : 0 ≤ k)
      omega
    rw [gemm_reduced_loop, gemm_reduced_loop]
    simp only [id]
    rw [wrap32_eq_self (by omega) hx1]
    by_cases hc : 0 < k * min (ceil_div wa L) (ceil_div wb L) ∧
        2 * L + ceil_log2 (k * min (ceil_div wa L) (ceil_div wb L)) > MPMAT_DOUBLE_MANT_IMPLICIT
    · obtain ⟨hb1, _, _⟩ := next_limb_bounds hx1 hc.2
      rw [if_pos hc, if_pos hc, if_neg (by omega), if_neg (by omega)]
      exact ih _ hb1
    · rw [if_neg hc, if_neg hc]

/-- Without overflow the planner as compiled and the planner over unbounded
integers agree. -/
theorem gemm_reduced_plan_eq_unbounded (k prec_a prec_b : Int) (hk : 1 ≤ k) (hk' : k < 2 ^ 31)
    (ha : 0 ≤ prec_a) (ha' : (prec_a + 1) * mp_bits_per_limb < 2 ^ 31)
    (hb : 0 ≤ prec_b) (hb' : (prec_b + 1) * mp_bits_per_limb < 2 ^ 31)
    (hr : k * ceil_div (min ((prec_a + 1) * mp_bits_per_limb)
            ((prec_b + 1) * mp_bits_per_limb)) 11 < 2 ^ 31) :
    gemm_reduced_plan k prec_a prec_b = gemm_reduced_plan_unbounded k prec_a prec_b := by
  have hwa : operand_bits id prec_a = (prec_a + 1) * mp_bits_per_limb := by
    unfold operand_bits; rw [abs_of_nonneg (by omega)]; rfl
  have hwb : operand_bits id prec_b = (prec_b + 1) * mp_bits_per_limb := by
    unfold operand_bits; rw [abs_of_nonneg (by omega)]; rfl
  have hpa : 0 ≤ (prec_a + 1) * mp_bits_per_limb := by unfold mp_bits_per_limb; omega
  have hpb : 0 ≤ (prec_b + 1) * mp_bits_per_limb := by unfold mp_bits_per_limb; omega
  have h0 := ceil_log2_nonneg k
  have h31 : ceil_log2 k ≤ (31 : Nat) := ceil_log2_le_of_le_pow (by exact_mod_cast hk'.le)
  push_cast at h31
  have hL0 : 11 ≤ Int.tdiv (MPMAT_DOUBLE_MANT_IMPLICIT - ceil_log2 k) 2 := by
    unfold MPMAT_DOUBLE_MANT_IMPLICIT
    rw [Int.tdiv_eq_ediv (by omega) (by omega)]
    omega
  unfold gemm_reduced_plan gemm_reduced_plan_unbounded gemm_reduced_plan_with
  rw [if_neg (by omega), if_neg (by omega)]
  simp only []
  rw [if_neg (by omega), if_neg (by omega)]
  rw [operand_bits_wrap32 ha ha', operand_bits_wrap32 hb hb', hwa, hwb]
  exact gemm_reduced_loop_eq_unbounded k _ _ hk hpa hpb hr 64 _ hL0

theorem syrk_reduced_gemms_eq_sum {m k : Nat} (A : Nat → Matrix (Fin m) (Fin k) Int)
    (C0 : Matrix (Fin m) (Fin m) Int) (i : Nat) :
    syrk_reduced_gemms A C0 i
      = C0 + Finset.sum (Finset.range (i / 2 + i % 2)) fun j => A j * (A (i - j)).transpose := by
  unfold syrk_reduced_gemms
  generalize i / 2 + i % 2 = n
  induction n with
  | zero => simp
  | succ n ih =>
    rw [List.range_succ, List.foldl_append, ih, Finset.sum_range_succ]
    simp only [List.foldl_cons, List.foldl_nil]
    rw [add_assoc]

/-- Splitting the convolution sum `Σ_{j ≤ i} T j` at the middle: the first
`⌈i/2⌉` terms, their mirror images, and the middle term when `i` is even. -/
theorem sum_split_mirror {M : Type} [AddCommMonoid M] (T : Nat → M) (i : Nat) :
    (Finset.sum (Finset.range (i + 1)) T)
      = (Finset.sum (Finset.range (i / 2 + i % 2)) T)
        + (Finset.sum (Finset.range (i / 2 + i % 2)) fun j => T (i - j))
        + (if i % 2 = 0 then T (i / 2) else 0) := by
  rcases Nat.even_or_odd' i with ⟨q, hq | hq⟩
  · subst hq
    have hn : 2 * q / 2 + 2 * q % 2 = q := by omega
    have hi2 : 2 * q / 2 = q := by omega
    have hmod : 2 * q % 2 = 0 := by omega
    rw [hn, hi2, if_pos hmod]
    have hsplit : 2 * q + 1 = q + (q + 1) := by omega
    rw [hsplit, Finset.sum_range_add, Finset.sum_range_succ']
    have hrefl : (Finset.sum (Finset.range q) fun j => T (q + (j + 1)))
        = Finset.sum (Finset.range q) fun j => T (2 * q - j) := by
      rw [← Finset.sum_range_reflect (fun j => T (2 * q - j)) q]
      apply Finset.sum_congr rfl
      intro j hj
      have := Finset.mem_range.1 hj
      have e : q + (j + 1) = 2 * q - (q - 1 - j) := by omega
      rw [e]
    rw [hrefl, Nat.add_zero, add_assoc]
  · subst hq
    have hn : (2 * q + 1) / 2 + (2 * q + 1) % 2 = q + 1 := by omega
    have hmod : ¬ (2 * q + 1) % 2 = 0 := by omega
    rw [hn, if_neg hmod, add_zero]
    have hsplit : 2 * q + 1 + 1 = (q + 1) + (q + 1) := by omega
    rw [hsplit, Finset.sum_range_add]
    have hrefl : (Finset.sum (Finset.range (q + 1)) fun j => T (q + 1 + j))
        = Finset.sum (Finset.range (q + 1)) fun j => T (2 * q + 1 - j) := by
      rw [← Finset.sum_range_reflect (fun j => T (2 * q + 1 - j)) (q + 1)]
      apply Finset.sum_congr rfl
      intro j hj
      have := Finset.mem_range.1 hj
      have e : q + 1 + j = 2 * q + 1 - (q + 1 - 1 - j) := by omega
      rw [e]
    rw [hrefl]

/-- The convolution plane `Σ_{j ≤ i} A[j] A[i-j]^T` is `G + G^T`, plus
`A[i/2] A[i/2]^T` when `i` is even, where `G` sums the first `⌈i/2⌉` terms. -/
theorem syrk_conv_eq {m k : Nat} (A : Nat → Matrix (Fin m) (Fin k) Int) (i : Nat) :
    (Finset.sum (Finset.range (i + 1)) fun j => A j * (A (i - j)).transpose)
      = (Finset.sum (Finset.range (i / 2 + i % 2)) fun j => A j * (A (i - j)).transpose)
        + (Finset.sum (Finset.range (i / 2 + i % 2)) fun j =>
            A j * (A (i - j)).transpose).transpose
        + (if i % 2 = 0 then A (i / 2) * (A (i / 2)).transpose else 0) := by
  rw [sum_split_mirror (fun j => A j * (A (i - j)).transpose) i, Matrix.transpose_sum]
  have hmid : (if i % 2 = 0 then A (i / 2) * (A (i - i / 2)).transpose else 0)
      = (if i % 2 = 0 then A (i / 2) * (A (i / 2)).transpose else 0) := by
    split
    · rename_i h
      have : i - i / 2 = i / 2 := by omega
      rw [this]
    · rfl
  rw [hmid]
  congr 2
  apply Finset.sum_congr rfl
  intro j hj
  have hj' := Finset.mem_range.1 hj
  have e : i - (i - j) = j := by omega
  rw [e, Matrix.transpose_mul, Matrix.transpose_transpose]

/-- For `m = k = 32768` and precision fields 2 the planner gives 12 planes and
the `int` size `mem_a = 12 * 32768 * 32768` wraps to 0, while the A plane of
`j = 1` starts at offset `2^30`: the premise on the sizes in the statement
about the limb planes is not automatic. -/
theorem gemm_reduced_gpu_mem_a_wraps_example :
    gemm_reduced_plan 32768 2 2 = PlanResult.done 17 12 12 ∧
    gemm_reduced_gpu_mem_a 12 32768 32768 = 0 ∧
    gemm_reduced_gpu_a_offset 32768 32768 1 = 2 ^ 30 := by
  decide

/-- In `parse_SDP` the second search for a comma repeats the first one: the
error "Missing comma after normalization" is never raised, and the comma
after which the matrices are parsed is the comma found after the objective,
whatever the parsers of the vectors and of the matrices return. -/
theorem parse_SDP_second_comma (text : List Char) (start : Nat)
    (parse_vector parse_generic : Nat → Nat) :
    parse_SDP text start parse_vector parse_generic
      ≠ ParseResult.error ParseError.missingCommaAfterNormalization ∧
    ∀ p, parse_SDP text start parse_vector parse_generic = ParseResult.ok p →
      p.comma = p.first_comma ∧ p.comma = find_from text p.end_objective ',' ∧
      p.end_normalization = parse_vector (p.first_comma + 1) := by
  unfold parse_SDP
  simp only []
  constructor
  · split
    · simp
    · split
      · simp
      · split <;> simp
  · intro p hp
    split at hp
    · exact absurd hp (by simp)
    · split at hp
      · exact absurd hp (by simp)
      · split at hp
        · exact absurd hp (by simp)
        · injection hp with hp
          subst hp
          exact ⟨rfl, rfl, rfl⟩

/-! ## Precision planner: safety, optimality, underflow, limb counts -/

/-- C1 (as amended).  For every `int` contraction size `1 ≤ k < 2^31` and all
operand precision fields whose bit count `(prec + 1) * 64` is a positive `int`,
the planner of `gemm_reduced` terminates with `L`, `Sa = ceil_div wa L`,
`Sb = ceil_div wb L` and `11 ≤ L ≤ 26` (so `L ≥ 1`); the mantissa bound
`2L + ⌈log₂(k·min(Sa,Sb))⌉ ≤ 53` holds whenever the final product
`k·min(Sa,Sb)` is below `2^31`, in particular whenever
`k·⌈min(wa,wb)/11⌉ < 2^31`. -/
theorem gemm_reduced_plan_safe (k prec_a prec_b : Int)
    (hk : 1 ≤ k) (hk' : k < 2 ^ 31)
    (ha : 0 ≤ prec_a) (ha' : (prec_a + 1) * mp_bits_per_limb < 2 ^ 31)
    (hb : 0 ≤ prec_b) (hb' : (prec_b + 1) * mp_bits_per_limb < 2 ^ 31) :
    ∃ L Sa Sb, gemm_reduced_plan k prec_a prec_b = PlanResult.done L Sa Sb ∧
      1 ≤ L ∧ 11 ≤ L ∧ L ≤ 26 ∧
      Sa = ceil_div ((prec_a + 1) * mp_bits_per_limb) L ∧
      Sb = ceil_div ((prec_b + 1) * mp_bits_per_limb) L ∧
      (k * min Sa Sb < 2 ^ 31 →
        2 * L + ceil_log2 (k * min Sa Sb) ≤ MPMAT_DOUBLE_MANT_IMPLICIT) ∧
      (k * ceil_div (min ((prec_a + 1) * mp_bits_per_limb)
            ((prec_b + 1) * mp_bits_per_limb)) 11 < 2 ^ 31 →
        2 * L + ceil_log2 (k * min Sa Sb) ≤ MPMAT_DOUBLE_MANT_IMPLICIT) := by
  obtain ⟨L, h11, h26, heq, hex⟩ :=
    gemm_reduced_plan_with_spec wrap32 wrap32_lt k prec_a prec_b hk hk'
  rw [operand_bits_wrap32 ha ha', operand_bits_wrap32 hb hb'] at heq hex
  have hwa : 0 < (prec_a + 1) * mp_bits_per_limb := by unfold mp_bits_per_limb; omega
  have hwb : 0 < (prec_b + 1) * mp_bits_per_limb := by unfold mp_bits_per_limb; omega
  have hSa := ceil_div_pos hwa (by omega : 1 ≤ L)
  have hSb := ceil_div_pos hwb (by omega : 1 ≤ L)
  have hmin : 1 ≤ min (ceil_div ((prec_a + 1) * mp_bits_per_limb) L)
      (ceil_div ((prec_b + 1) * mp_bits_per_limb) L) := le_min hSa hSb
  have hpos : 0 < k * min (ceil_div ((prec_a + 1) * mp_bits_per_limb) L)
      (ceil_div ((prec_b + 1) * mp_bits_per_limb) L) := mul_pos (by omega) (by omega)
  have key : k * min (ceil_div ((prec_a + 1) * mp_bits_per_limb) L)
      (ceil_div ((prec_b + 1) * mp_bits_per_limb) L) < 2 ^ 31 →
      2 * L + ceil_log2 (k * min (ceil_div ((prec_a + 1) * mp_bits_per_limb) L)
      (ceil_div ((prec_b + 1) * mp_bits_per_limb) L)) ≤ MPMAT_DOUBLE_MANT_IMPLICIT := by
    intro hlt
    rw [wrap32_eq_self (by omega) hlt] at hex
    by_contra hc
    exact hex ⟨hpos, by omega⟩
  refine ⟨L, _, _, heq, by omega, h11, h26, rfl, rfl, key, ?_⟩
  intro hlt
  apply key
  have h1 := min_ceil_div_le hwa.le hwb.le h11
  have : k * min (ceil_div ((prec_a + 1) * mp_bits_per_limb) L)
      (ceil_div ((prec_b + 1) * mp_bits_per_limb) L)
      ≤ k * ceil_div (min ((prec_a + 1) * mp_bits_per_limb)
            ((prec_b + 1) * mp_bits_per_limb)) 11 :=
    mul_le_mul_of_nonneg_left h1 (by omega)
  omega

/-- Witness for C1: the amended statement at `k = 1000`, precision fields 15
(1024 bits), where both premises on the product hold. -/
theorem gemm_reduced_plan_safe_witness :
    (1000 * ceil_div (min ((15 + 1) * mp_bits_per_limb) ((15 + 1) * mp_bits_per_limb)) 11
        < (2 : Int) ^ 31) ∧
    ∃ L Sa Sb, gemm_reduced_plan 1000 15 15 = PlanResult.done L Sa Sb ∧
      1 ≤ L ∧ 11 ≤ L ∧ L ≤ 26 ∧
      Sa = ceil_div ((15 + 1) * mp_bits_per_limb) L ∧
      Sb = ceil_div ((15 + 1) * mp_bits_per_limb) L ∧
      (1000 * min Sa Sb < 2 ^ 31 →
        2 * L + ceil_log2 (1000 * min Sa Sb) ≤ MPMAT_DOUBLE_MANT_IMPLICIT) ∧
      (1000 * ceil_div (min ((15 + 1) * mp_bits_per_limb)
            ((15 + 1) * mp_bits_per_limb)) 11 < 2 ^ 31 →
        2 * L + ceil_log2 (1000 * min Sa Sb) ≤ MPMAT_DOUBLE_MANT_IMPLICIT) :=
  ⟨by decide, gemm_reduced_plan_safe 1000 15 15 (by decide) (by decide) (by decide)
    (by decide) (by decide) (by decide)⟩

/-- Counterexample to C1 as stated: `K = 2^30 ≤ 2^40` and precision fields
`2^23 - 1` (far above 64 bits).  The planner as compiled ends with `L = 11` and
violates the mantissa bound; read over unbounded integers it ends with
`L = -1`; and no limb width `L ≥ 1` at all satisfies the bound for this input. -/
theorem gemm_reduced_plan_unsafe_example :
    (¬ ∃ L Sa Sb, gemm_reduced_plan (2 ^ 30) (2 ^ 23 - 1) (2 ^ 23 - 1)
          = PlanResult.done L Sa Sb ∧
        2 * L + ceil_log2 (2 ^ 30 * min Sa Sb) ≤ 53 ∧ 1 ≤ L) ∧
    (¬ ∃ L Sa Sb, gemm_reduced_plan_unbounded (2 ^ 30) (2 ^ 23 - 1) (2 ^ 23 - 1)
          = PlanResult.done L Sa Sb ∧
        2 * L + ceil_log2 (2 ^ 30 * min Sa Sb) ≤ 53 ∧ 1 ≤ L) ∧
    (∀ L, ¬ mantissa_bound_holds (2 ^ 30) (2 ^ 29) (2 ^ 29) L) := by
  refine ⟨?_, ?_, ?_⟩
  · rintro ⟨L, Sa, Sb, h, hb, _⟩
    have e : gemm_reduced_plan (2 ^ 30) (2 ^ 23 - 1) (2 ^ 23 - 1)
        = PlanResult.done 11 48806447 48806447 := by decide
    rw [e] at h
    injection h with h1 h2 h3
    subst h1 h2 h3
    revert hb
    decide
  · rintro ⟨L, Sa, Sb, h, _, hL⟩
    have e : gemm_reduced_plan_unbounded (2 ^ 30) (2 ^ 23 - 1) (2 ^ 23 - 1)
        = PlanResult.done (-1) (-2 ^ 29) (-2 ^ 29) := by decide
    rw [e] at h
    injection h with h1 h2 h3
    omega
  · rintro L ⟨h1, h2⟩
    have h0 := ceil_log2_nonneg
      (2 ^ 30 * min (spec_limb_count (2 ^ 29) L) (spec_limb_count (2 ^ 29) L))
    have hL : L ≤ 26 := by omega
    interval_cases L <;> revert h2 <;> decide

/-- C2 (evaluation at the failing input).  For precision fields 1024 and
`k = 10^6` the planner as compiled returns `L = 16`, `Sa = Sb = 4100`, which
violates the mantissa bound, because the `int` product `10^6 * 4100` wraps to a
negative number and ends the loop; the largest limb width satisfying the bound
is 10, with `Sa = ⌈1025·64/10⌉ = 6560`, which is what the same loop returns over
unbounded integers. -/
theorem gemm_reduced_plan_not_largest_example :
    gemm_reduced_plan 1000000 1024 1024 = PlanResult.done 16 4100 4100 ∧
    wrap32 (1000000 * min 4100 4100) < 0 ∧
    ¬ mantissa_bound_holds 1000000 (1025 * 64) (1025 * 64) 16 ∧
    mantissa_bound_holds 1000000 (1025 * 64) (1025 * 64) 10 ∧
    (∀ L, mantissa_bound_holds 1000000 (1025 * 64) (1025 * 64) L → L ≤ 10) ∧
    spec_limb_count (1025 * 64) 10 = 6560 ∧
    gemm_reduced_plan_unbounded 1000000 1024 1024 = PlanResult.done 10 6560 6560 := by
  refine ⟨by decide, by decide, by decide, by decide, ?_, by decide, by decide⟩
  rintro L ⟨h1, h2⟩
  have h0 := ceil_log2_nonneg
    (1000000 * min (spec_limb_count (1025 * 64) L) (spec_limb_count (1025 * 64) L))
  have hL : L ≤ 26 := by omega
  by_contra hc
  push_neg at hc
  interval_cases L <;> revert h2 <;> decide

/-- Over unbounded integers (not the arithmetic of the compiled code) the same
loop can reach a width below 1: at `k = 2^30` and precision fields `2^23 - 1`
it assigns `L = -1`, divides by it and ends normally with the limb counts
`ceil_div(2^29, -1) = -2^29`; at precision fields `2^20 - 1` it assigns `L = 0`
and the next `ceil_div` divides by zero.  With the `int` product of lines
279-280 these runs do not occur, see `gemm_reduced_plan`. -/
theorem gemm_reduced_underflow_unreported_example :
    (∃ L Sa Sb, gemm_reduced_plan_unbounded (2 ^ 30) (2 ^ 23 - 1) (2 ^ 23 - 1)
        = PlanResult.done L Sa Sb ∧ L < 1 ∧
        Sa = ceil_div (2 ^ 29) L ∧ Sb = ceil_div (2 ^ 29) L) ∧
    gemm_reduced_plan_unbounded (2 ^ 30) (2 ^ 20 - 1) (2 ^ 20 - 1) = PlanResult.divByZero :=
  ⟨⟨-1, -2 ^ 29, -2 ^ 29, by decide, by decide, by decide, by decide⟩, by decide⟩

/-- C4.  For every bit count `w ≥ 0` and limb width `L ≥ 1`, `ceil_div w L` is
the mathematical ceiling of `w / L`, that is the least integer `S` with
`S * L ≥ w`; and whenever the planner of `gemm_reduced` returns this `L`, its
limb counts `Sa`, `Sb` are the least integers with `Sa * L ≥ (prec_a+1)*64` and
`Sb * L ≥ (prec_b+1)*64`. -/
theorem ceil_div_is_ceiling (w L : Int) (hw : 0 ≤ w) (hL : 1 ≤ L) :
    ceil_div w L = ⌈(w : ℚ) / (L : ℚ)⌉ ∧
    w ≤ ceil_div w L * L ∧ (∀ S : Int, w ≤ S * L → ceil_div w L ≤ S) ∧
    (∀ k prec_a prec_b Sa Sb : Int,
      0 ≤ prec_a → (prec_a + 1) * mp_bits_per_limb < 2 ^ 31 →
      0 ≤ prec_b → (prec_b + 1) * mp_bits_per_limb < 2 ^ 31 →
      gemm_reduced_plan k prec_a prec_b = PlanResult.done L Sa Sb →
      (Sa = ⌈(((prec_a + 1) * mp_bits_per_limb : Int) : ℚ) / (L : ℚ)⌉ ∧
        (prec_a + 1) * mp_bits_per_limb ≤ Sa * L ∧
        ∀ S : Int, (prec_a + 1) * mp_bits_per_limb ≤ S * L → Sa ≤ S) ∧
      (Sb = ⌈(((prec_b + 1) * mp_bits_per_limb : Int) : ℚ) / (L : ℚ)⌉ ∧
        (prec_b + 1) * mp_bits_per_limb ≤ Sb * L ∧
        ∀ S : Int, (prec_b + 1) * mp_bits_per_limb ≤ S * L → Sb ≤ S)) := by
  refine ⟨ceil_div_eq_ceil hw hL, ceil_div_mul_ge hw hL,
    fun S h => ceil_div_le_of_le_mul hw hL h, ?_⟩
  intro k prec_a prec_b Sa Sb ha ha' hb hb' h
  obtain ⟨h1, h2⟩ := gemm_reduced_plan_counts wrap32 64 k prec_a prec_b L Sa Sb h
  rw [operand_bits_wrap32 ha ha'] at h1
  rw [operand_bits_wrap32 hb hb'] at h2
  have hwa : 0 ≤ (prec_a + 1) * mp_bits_per_limb := by unfold mp_bits_per_limb; omega
  have hwb : 0 ≤ (prec_b + 1) * mp_bits_per_limb := by unfold mp_bits_per_limb; omega
  subst h1 h2
  exact ⟨⟨ceil_div_eq_ceil hwa hL, ceil_div_mul_ge hwa hL,
      fun S h => ceil_div_le_of_le_mul hwa hL h⟩,
    ⟨ceil_div_eq_ceil hwb hL, ceil_div_mul_ge hwb hL,
      fun S h => ceil_div_le_of_le_mul hwb hL h⟩⟩

/-- Witness for C4: `w = 1025 * 64`, `L = 16`, the width the planner returns for
precision fields 1024 and `k = 10^6`. -/
theorem ceil_div_is_ceiling_witness :
    ceil_div (1025 * 64) 16 = ⌈(((1025 * 64 : Int)) : ℚ) / ((16 : Int) : ℚ)⌉ ∧
    1025 * 64 ≤ ceil_div (1025 * 64) 16 * 16 ∧
    (∀ S : Int, 1025 * 64 ≤ S * 16 → ceil_div (1025 * 64) 16 ≤ S) ∧
    (∀ k prec_a prec_b Sa Sb : Int,
      0 ≤ prec_a → (prec_a + 1) * mp_bits_per_limb < 2 ^ 31 →
      0 ≤ prec_b → (prec_b + 1) * mp_bits_per_limb < 2 ^ 31 →
      gemm_reduced_plan k prec_a prec_b = PlanResult.done 16 Sa Sb →
      (Sa = ⌈(((prec_a + 1) * mp_bits_per_limb : Int) : ℚ) / ((16 : Int) : ℚ)⌉ ∧
        (prec_a + 1) * mp_bits_per_limb ≤ Sa * 16 ∧
        ∀ S : Int, (prec_a + 1) * mp_bits_per_limb ≤ S * 16 → Sa ≤ S) ∧
      (Sb = ⌈(((prec_b + 1) * mp_bits_per_limb : Int) : ℚ) / ((16 : Int) : ℚ)⌉ ∧
        (prec_b + 1) * mp_bits_per_limb ≤ Sb * 16 ∧
        ∀ S : Int, (prec_b + 1) * mp_bits_per_limb ≤ S * 16 → Sb ≤ S)) :=
  ceil_div_is_ceiling (1025 * 64) 16 (by decide) (by decide)

/-! ## Base-case multiply: convolution, exponent accounting, exactness -/

/-- C5.  For all limb vectors `a`, `b` and every output index `i < Sc`, the
base-case multiply leaves `c[i] = Σ_{j=0..i} a[j] * b[i-j]`, limbs at indices
beyond the end of `a` or `b` counting as zero; that is, `c` has `Sc` entries
and `c[i]` is the `i`-th coefficient of the product of the two limb
polynomials. -/
theorem base_case_conv_is_convolution (a b : List Int) (Sc i : Nat) (hi : i < Sc) :
    (base_case_conv a b Sc).length = Sc ∧
    (base_case_conv a b Sc).getD i 0
      = (Finset.sum (Finset.range (i + 1)) fun j => a.getD j 0 * b.getD (i - j) 0) ∧
    (base_case_conv a b Sc).getD i 0
      = Polynomial.coeff
          ((Finset.sum (Finset.range a.length) fun s =>
              Polynomial.C (a.getD s 0) * Polynomial.X ^ s)
            * (Finset.sum (Finset.range b.length) fun s =>
              Polynomial.C (b.getD s 0) * Polynomial.X ^ s)) i := by
  refine ⟨by simp [base_case_conv], ?_, ?_⟩
  · rw [base_case_conv_getD a b Sc i hi, base_case_limb_eq_sum]
  · rw [base_case_conv_getD a b Sc i hi, base_case_limb_eq_sum, Polynomial.coeff_mul,
      Finset.Nat.sum_antidiagonal_eq_sum_range_succ
        (fun j l => Polynomial.coeff (Finset.sum (Finset.range a.length) fun s =>
              Polynomial.C (a.getD s 0) * Polynomial.X ^ s) j
          * Polynomial.coeff (Finset.sum (Finset.range b.length) fun s =>
              Polynomial.C (b.getD s 0) * Polynomial.X ^ s) l)]
    apply Finset.sum_congr rfl
    intro j _
    rw [limb_poly_coeff, limb_poly_coeff]

/-- Witness for C5: `a = [1, 2, 3]`, `b = [4, 5]`, `Sc = 5`, output index 2,
where `c[2] = 1*0 + 2*5 + 3*4 = 22`. -/
theorem base_case_conv_is_convolution_witness :
    (base_case_conv [1, 2, 3] [4, 5] 5).getD 2 0 = 22 ∧
    (base_case_conv [1, 2, 3] [4, 5] 5).length = 5 ∧
    (base_case_conv [1, 2, 3] [4, 5] 5).getD 2 0
      = (Finset.sum (Finset.range (2 + 1)) fun j =>
          ([1, 2, 3] : List Int).getD j 0 * ([4, 5] : List Int).getD (2 - j) 0) ∧
    (base_case_conv [1, 2, 3] [4, 5] 5).getD 2 0
      = Polynomial.coeff
          ((Finset.sum (Finset.range ([1, 2, 3] : List Int).length) fun s =>
              Polynomial.C (([1, 2, 3] : List Int).getD s 0) * Polynomial.X ^ s)
            * (Finset.sum (Finset.range ([4, 5] : List Int).length) fun s =>
              Polynomial.C (([4, 5] : List Int).getD s 0) * Polynomial.X ^ s)) 2 :=
  ⟨by decide, base_case_conv_is_convolution [1, 2, 3] [4, 5] 5 2 (by decide)⟩

/-- C8 (evaluation at the failing input).  From the empty workspace the call
`realloc(2^32, 0, 0)` of the host build grows `len_a` to `2^32` but leaves the
scratch capacity `len_t` at 0, because the maximum of the requests is stored in
`int mem_t` and `2^32` reduces to 0; the CUDA build's variant with
`size_t mem_t` sets `len_t = 2^32`.  The spec's sequence (64,64,64),
(32,32,32), (128,128,128) does leave every buffer sized for the third call. -/
theorem realloc_scratch_truncated_example :
    realloc_seq Workspace.empty [(2 ^ 32, 0, 0)] = some ⟨2 ^ 32, 0, 0, 0⟩ ∧
    max_request (fun c => max (max c.1 c.2.1) c.2.2) [(2 ^ 32, 0, 0)] = 2 ^ 32 ∧
    realloc_cuda Workspace.empty (2 ^ 32) 0 0 = some ⟨2 ^ 32, 0, 0, 2 ^ 32⟩ ∧
    realloc_seq Workspace.empty [(2 ^ 32 + 5, 0, 0)] = some ⟨2 ^ 32 + 5, 0, 0, 5⟩ ∧
    realloc_seq Workspace.empty [(64, 64, 64), (32, 32, 32), (128, 128, 128)]
      = some ⟨128, 128, 128, 128⟩ := by
  refine ⟨by decide, by decide, by decide, by decide, by decide⟩

/-- C10 (evaluation at the failing input).  For `k = 1` and precision fields 2
and 4 the planner returns `L = 25`, `Sa = 8`, `Sb = 13`; the host path
`gemm_reduced` uses `Sc = min(Sa, Sb) = 8` output planes, the GPU path
`gemm_reduced_gpu` uses `Sc = max(Sa, Sb) = 13`. -/
theorem gemm_reduced_gpu_size_c_example :
    gemm_reduced_plan 1 2 4 = PlanResult.done 25 8 13 ∧
    gemm_reduced_size_c 1 2 4 = some (min 8 13) ∧
    gemm_reduced_gpu_size_c 1 2 4 = some 13 ∧
    gemm_reduced_gpu_size_c 1 2 4 ≠ some (min 8 13) := by
  decide

/-! ## GPU schedule: device assignment, zero devices -/

/-- C11 (evaluation at the failing input).  For precision fields `2^25 - 2` and
`k = 1` the planner gives `Sc = 178956966 ≥ 1` planes; with `gpu_count = 16 ≥ 1`
and the plane index `i = 2^27 < Sc` the `int` product `i * gpu_count = 2^31` of
line 456 wraps and the assigned device is `-12`, which is not in
`[0, gpu_count)`. -/
theorem gemm_reduced_gpu_id_overflow_example :
    gemm_reduced_gpu_size_c 1 (2 ^ 25 - 2) (2 ^ 25 - 2) = some 178956966 ∧
    (2 : Int) ^ 27 < 178956966 ∧
    gemm_reduced_gpu_id (2 ^ 27) 16 178956966 = -12 ∧
    ¬ (0 ≤ gemm_reduced_gpu_id (2 ^ 27) 16 178956966 ∧
        gemm_reduced_gpu_id (2 ^ 27) 16 178956966 < 16) := by
  decide

/-- While the product of line 456 stays inside `int` the device assignment is
valid: for every number of output planes `Sc ≥ 1` and every `gpu_count ≥ 1`
(also `gpu_count > Sc`) with `(Sc - 1) * gpu_count < 2^31`, and all plane
indices `0 ≤ i ≤ j < Sc`, the assigned device `gpu_id = i * gpu_count / Sc`
satisfies `0 ≤ gpu_id < gpu_count`, and the device of `i` is not above the
device of `j`. -/
theorem gemm_reduced_gpu_id_valid (Sc gpu_count i j : Int)
    (hSc : 1 ≤ Sc) (hg : 1 ≤ gpu_count) (hi : 0 ≤ i) (hij : i ≤ j) (hj : j < Sc)
    (hr : (Sc - 1) * gpu_count < 2 ^ 31) :
    gemm_reduced_gpu_id i gpu_count Sc = i * gpu_count / Sc ∧
    0 ≤ gemm_reduced_gpu_id i gpu_count Sc ∧
    gemm_reduced_gpu_id i gpu_count Sc < gpu_count ∧
    gemm_reduced_gpu_id i gpu_count Sc ≤ gemm_reduced_gpu_id j gpu_count Sc := by
  have hjr : j * gpu_count < 2 ^ 31 := by
    have : j * gpu_count ≤ (Sc - 1) * gpu_count :=
      mul_le_mul_of_nonneg_right (by omega) (by omega)
    omega
  have hir : i * gpu_count < 2 ^ 31 := by
    have : i * gpu_count ≤ j * gpu_count := mul_le_mul_of_nonneg_right hij (by omega)
    omega
  rw [gemm_reduced_gpu_id_eq hi (by omega) hSc hir,
    gemm_reduced_gpu_id_eq (by omega) (by omega) hSc hjr]
  refine ⟨rfl, ?_, ?_, ?_⟩
  · exact Int.ediv_nonneg (mul_nonneg hi (by omega)) (by omega)
  · apply Int.ediv_lt_of_lt_mul (by omega)
    have : i * gpu_count < Sc * gpu_count := mul_lt_mul_of_pos_right (by omega) (by omega)
    linarith [mul_comm Sc gpu_count]
  · exact Int.ediv_le_ediv (by omega) (mul_le_mul_of_nonneg_right hij (by omega))

/-- Instance of `gemm_reduced_gpu_id_valid`: three planes on five devices
(`gpu_count > Sc`), planes 1 and 2. -/
theorem gemm_reduced_gpu_id_valid_witness :
    gemm_reduced_gpu_id 1 5 3 = 1 * 5 / 3 ∧
    0 ≤ gemm_reduced_gpu_id 1 5 3 ∧
    gemm_reduced_gpu_id 1 5 3 < 5 ∧
    gemm_reduced_gpu_id 1 5 3 ≤ gemm_reduced_gpu_id 2 5 3 :=
  gemm_reduced_gpu_id_valid 3 5 1 2 (by decide) (by decide) (by decide) (by decide)
    (by decide) (by decide)

/-- Counterexample to C12 as stated: with `gpu_count = 0` and one output plane,
`gemm_reduced_gpu` selects device 0 and indexes `handles[0]`, `d_a[0]`, `d_b[0]`,
`d_c[0]` for its GEMM and for the copy back. -/
theorem gemm_reduced_gpu_zero_devices_example :
    gemm_reduced_gpu_calls 0 1
      = [GpuCall.setDevice 0, GpuCall.dgemm 0 0 0, GpuCall.copyBack 0 0] ∧
    gemm_reduced_gpu_calls 0 1 ≠ [] := by
  decide

/-- C12 (as amended).  When `gpu_count = 0` the forward copy loop touches no
device, but there is no host fall-back: for every output plane `i < Sc` and
every `j ≤ i`, `gemm_reduced_gpu` selects device 0, issues the GEMM of planes
`j` and `i - j` with `handles[0]`, `d_a[0]`, `d_b[0]`, `d_c[0]` and copies plane
`i` back from `d_c[0]`; every call that names a device names device 0. -/
theorem gemm_reduced_gpu_zero_devices (Sc i j : Nat) (hi : i < Sc) (hj : j ≤ i) :
    (∀ d, GpuCall.copyForward d ∉ gemm_reduced_gpu_calls 0 Sc) ∧
    GpuCall.setDevice 0 ∈ gemm_reduced_gpu_calls 0 Sc ∧
    GpuCall.dgemm 0 i j ∈ gemm_reduced_gpu_calls 0 Sc ∧
    GpuCall.copyBack 0 i ∈ gemm_reduced_gpu_calls 0 Sc ∧
    (∀ c ∈ gemm_reduced_gpu_calls 0 Sc, c.device = 0) := by
  refine ⟨?_, ?_, ?_, ?_, ?_⟩
  · intro d hd
    rw [mem_gemm_reduced_gpu_calls] at hd
    rcases hd with ⟨d', hd', _⟩ | ⟨i', _, h | ⟨j', _, h⟩ | h⟩
    · simp at hd'
    · exact absurd h (by simp)
    · exact absurd h (by simp)
    · exact absurd h (by simp)
  · rw [mem_gemm_reduced_gpu_calls]
    exact Or.inr ⟨i, hi, Or.inl (by rw [gemm_reduced_gpu_id_zero])⟩
  · rw [mem_gemm_reduced_gpu_calls]
    exact Or.inr ⟨i, hi, Or.inr (Or.inl ⟨j, hj, by rw [gemm_reduced_gpu_id_zero]⟩)⟩
  · rw [mem_gemm_reduced_gpu_calls]
    exact Or.inr ⟨i, hi, Or.inr (Or.inr (by rw [gemm_reduced_gpu_id_zero]))⟩
  · intro c hc
    rw [mem_gemm_reduced_gpu_calls] at hc
    rcases hc with ⟨d', hd', _⟩ | ⟨i', _, h | ⟨j', _, h⟩ | h⟩
    · simp at hd'
    · rw [h, gemm_reduced_gpu_id_zero]; rfl
    · rw [h, gemm_reduced_gpu_id_zero]; rfl
    · rw [h, gemm_reduced_gpu_id_zero]; rfl

/-- Witness for C12: four output planes, plane 2 and `j = 1`. -/
theorem gemm_reduced_gpu_zero_devices_witness :
    (∀ d, GpuCall.copyForward d ∉ gemm_reduced_gpu_calls 0 4) ∧
    GpuCall.setDevice 0 ∈ gemm_reduced_gpu_calls 0 4 ∧
    GpuCall.dgemm 0 2 1 ∈ gemm_reduced_gpu_calls 0 4 ∧
    GpuCall.copyBack 0 2 ∈ gemm_reduced_gpu_calls 0 4 ∧
    (∀ c ∈ gemm_reduced_gpu_calls 0 4, c.device = 0) :=
  gemm_reduced_gpu_zero_devices 4 2 1 (by decide) (by decide)

/-! ## Planner: convergence and 32 bit arithmetic -/

/-- C13 (evaluation at the failing input).  For precision fields 1024 and
`k = 10^6` the loop of the planner as compiled stops without executing an
iteration (fuel 1 is enough), with `L = 16`, `Sa = Sb = 4100`: the mantissa
bound is not satisfied (`2*16 + 32 = 64 > 53`) and `L` is not below 1. -/
theorem gemm_reduced_loop_exit_example :
    gemm_reduced_plan_with wrap32 1 1000000 1024 1024 = PlanResult.done 16 4100 4100 ∧
    gemm_reduced_plan 1000000 1024 1024 = PlanResult.done 16 4100 4100 ∧
    ¬ (2 * 16 + ceil_log2 (1000000 * min 4100 4100) ≤ MPMAT_DOUBLE_MANT_IMPLICIT) ∧
    ¬ ((16 : Int) < 1) := by
  decide

/-- Convergence of the planner loop as compiled.  For every `int` `k` with
`1 ≤ k < 2^31` and operand bit counts that are non-negative `int`s: every
executed iteration of the planner loop of `gemm_reduced` assigns a strictly
smaller limb width, still at least 11, and limb counts that are not smaller;
the loop stops after at most
`L0 = (53 - ⌈log₂ k⌉)/2` iterations with a width `11 ≤ L ≤ L0`; and at the exit
the mantissa bound holds whenever the final product `k·min(Sa,Sb)` is below
`2^31`. -/
theorem gemm_reduced_loop_convergence (k prec_a prec_b : Int)
    (hk : 1 ≤ k) (hk' : k < 2 ^ 31)
    (ha : 0 ≤ prec_a) (ha' : (prec_a + 1) * mp_bits_per_limb < 2 ^ 31)
    (hb : 0 ≤ prec_b) (hb' : (prec_b + 1) * mp_bits_per_limb < 2 ^ 31) :
    (∀ L Sa Sb : Int,
      (0 < wrap32 (k * min Sa Sb) ∧
        2 * L + ceil_log2 (wrap32 (k * min Sa Sb)) > MPMAT_DOUBLE_MANT_IMPLICIT) →
      11 ≤ Int.tdiv (MPMAT_DOUBLE_MANT_IMPLICIT - ceil_log2 (wrap32 (k * min Sa Sb))) 2 ∧
      Int.tdiv (MPMAT_DOUBLE_MANT_IMPLICIT - ceil_log2 (wrap32 (k * min Sa Sb))) 2 < L ∧
      ceil_div ((prec_a + 1) * mp_bits_per_limb) L
        ≤ ceil_div ((prec_a + 1) * mp_bits_per_limb)
            (Int.tdiv (MPMAT_DOUBLE_MANT_IMPLICIT - ceil_log2 (wrap32 (k * min Sa Sb))) 2) ∧
      ceil_div ((prec_b + 1) * mp_bits_per_limb) L
        ≤ ceil_div ((prec_b + 1) * mp_bits_per_limb)
            (Int.tdiv (MPMAT_DOUBLE_MANT_IMPLICIT - ceil_log2 (wrap32 (k * min Sa Sb))) 2)) ∧
    (∃ L Sa Sb, 11 ≤ L ∧ L ≤ Int.tdiv (MPMAT_DOUBLE_MANT_IMPLICIT - ceil_log2 k) 2 ∧
      gemm_reduced_plan_with wrap32
          ((Int.tdiv (MPMAT_DOUBLE_MANT_IMPLICIT - ceil_log2 k) 2).toNat + 1) k prec_a prec_b
        = PlanResult.done L Sa Sb ∧
      gemm_reduced_plan k prec_a prec_b = PlanResult.done L Sa Sb ∧
      (k * min Sa Sb < 2 ^ 31 →
        2 * L + ceil_log2 (k * min Sa Sb) ≤ MPMAT_DOUBLE_MANT_IMPLICIT)) := by
  have hwa : 0 < (prec_a + 1) * mp_bits_per_limb := by unfold mp_bits_per_limb; omega
  have hwb : 0 < (prec_b + 1) * mp_bits_per_limb := by unfold mp_bits_per_limb; omega
  constructor
  · intro L Sa Sb hc
    obtain ⟨h1, h2, h3⟩ := gemm_reduced_loop_step wrap32 wrap32_lt k _ L Sa Sb hwa.le hc
    obtain ⟨_, _, h4⟩ := gemm_reduced_loop_step wrap32 wrap32_lt k _ L Sa Sb hwb.le hc
    exact ⟨h1, h2, h3, h4⟩
  · obtain ⟨L, h1, h2, heq, hplan⟩ := gemm_reduced_plan_converges k prec_a prec_b hk hk'
    obtain ⟨L2, _, _, heq2, hex⟩ :=
      gemm_reduced_plan_with_spec wrap32 wrap32_lt k prec_a prec_b hk hk'
    have hsame : L2 = L := by
      have h := heq2.symm.trans hplan
      injection h
    subst hsame
    rw [operand_bits_wrap32 ha ha', operand_bits_wrap32 hb hb'] at heq hplan hex
    refine ⟨L2, _, _, h1, h2, heq, hplan, ?_⟩
    intro hlt
    have hSa := ceil_div_pos hwa (by omega : 1 ≤ L2)
    have hSb := ceil_div_pos hwb (by omega : 1 ≤ L2)
    have hpos : 0 < k * min (ceil_div ((prec_a + 1) * mp_bits_per_limb) L2)
        (ceil_div ((prec_b + 1) * mp_bits_per_limb) L2) :=
      mul_pos (by omega) (lt_of_lt_of_le (by norm_num) (le_min hSa hSb))
    rw [wrap32_eq_self (by omega) hlt] at hex
    by_contra hcon
    exact hex ⟨hpos, by omega⟩

/-- Instance of `gemm_reduced_loop_convergence`: `k = 1000`, precision fields
15. -/
theorem gemm_reduced_loop_convergence_witness :
    ∃ L Sa Sb, 11 ≤ L ∧ L ≤ Int.tdiv (MPMAT_DOUBLE_MANT_IMPLICIT - ceil_log2 1000) 2 ∧
      gemm_reduced_plan_with wrap32
          ((Int.tdiv (MPMAT_DOUBLE_MANT_IMPLICIT - ceil_log2 1000) 2).toNat + 1) 1000 15 15
        = PlanResult.done L Sa Sb ∧
      gemm_reduced_plan 1000 15 15 = PlanResult.done L Sa Sb ∧
      (1000 * min Sa Sb < 2 ^ 31 →
        2 * L + ceil_log2 (1000 * min Sa Sb) ≤ MPMAT_DOUBLE_MANT_IMPLICIT) :=
  (gemm_reduced_loop_convergence 1000 15 15 (by decide) (by decide) (by decide) (by decide)
    (by decide) (by decide)).2

/-- C16 (evaluation at the failing input).  For precision fields 1024 and
`k = 10^6 < 2^31`, after the first step `k * min(Sa, Sb) = 10^6 * 4100`
exceeds `2^31 - 1`; taken modulo `2^32` as a signed `int` it is negative, the
loop ends, and the planner as compiled returns `L = 16`, `Sa = Sb = 4100`,
while the planner over unbounded integers returns `L = 10`, `Sa = Sb = 6560`. -/
theorem gemm_reduced_plan_wraps_example :
    (1 : Int) ≤ 1000000 ∧ (1000000 : Int) < 2 ^ 31 ∧
    (2 : Int) ^ 31 ≤ 1000000 * min 4100 4100 ∧
    wrap32 (1000000 * min 4100 4100) = -194967296 ∧
    gemm_reduced_plan 1000000 1024 1024 = PlanResult.done 16 4100 4100 ∧
    gemm_reduced_plan_unbounded 1000000 1024 1024 = PlanResult.done 10 6560 6560 ∧
    gemm_reduced_plan 1000000 1024 1024 ≠ gemm_reduced_plan_unbounded 1000000 1024 1024 := by
  decide

/-! ## GPU path: limb planes and workspace -/

/-- C15.  For all integer limb planes `A[0], A[1], ...` of an `m × k` matrix and
every output index `i`, the plane produced by the schedule of lines 725-756 on
a zeroed plane (`G + G^T` with `G = Σ_{j < ⌈i/2⌉} A[j] A[i-j]^T`, plus the
upper-triangular SYRK update `A[i/2] A[i/2]^T` when `i` is even) agrees on and
above the diagonal with `Σ_{j=0..i} A[j] A[i-j]^T` (on a plane with content `C0`
it adds that sum to `C0 + C0^T`); the schedule issues `⌈i/2⌉` GEMMs, at most
half of `i + 1`. -/
theorem syrk_reduced_plane_is_convolution {m k : Nat} (A : Nat → Matrix (Fin m) (Fin k) Int)
    (C0 : Matrix (Fin m) (Fin m) Int) (i : Nat) (r c : Fin m) (hrc : r ≤ c) :
    syrk_reduced_plane A 0 i r c
      = (Finset.sum (Finset.range (i + 1)) fun j => A j * (A (i - j)).transpose) r c ∧
    syrk_reduced_plane A C0 i r c
      = (C0 + C0.transpose) r c
        + (Finset.sum (Finset.range (i + 1)) fun j => A j * (A (i - j)).transpose) r c ∧
    syrk_reduced_gemm_count i = (i + 1) / 2 ∧
    2 * syrk_reduced_gemm_count i ≤ i + 1 := by
  have key : ∀ C1 : Matrix (Fin m) (Fin m) Int, syrk_reduced_plane A C1 i r c
      = (C1 + C1.transpose) r c
        + (Finset.sum (Finset.range (i + 1)) fun j => A j * (A (i - j)).transpose) r c := by
    intro C1
    rw [syrk_conv_eq A i]
    unfold syrk_reduced_plane
    rw [syrk_reduced_gemms_eq_sum]
    by_cases hpar : i % 2 = 0
    · rw [if_pos hpar, if_pos hpar]
      unfold dsyrk_upper
      simp only [Matrix.of_apply, if_pos hrc, Matrix.add_apply, Matrix.transpose_apply]
      ring
    · rw [if_neg hpar, if_neg hpar]
      simp only [Matrix.add_apply, Matrix.transpose_apply, Matrix.zero_apply]
      ring
  refine ⟨?_, key C0, ?_, ?_⟩
  · rw [key 0]
    simp
  · unfold syrk_reduced_gemm_count
    rw [List.length_range]
    omega
  · unfold syrk_reduced_gemm_count
    rw [List.length_range]
    omega

/-- Witness for C15: two planes of a `2 × 1` matrix, output index 2, entry
`(0, 1)` on a zeroed plane. -/
theorem syrk_reduced_plane_is_convolution_witness :
    syrk_reduced_plane (m := 2) (k := 1)
        (fun j => Matrix.of fun r _ => (j : Int) + (r.val : Int) + 1) 0 2 0 1
      = (Finset.sum (Finset.range (2 + 1)) fun j =>
          (Matrix.of fun (r : Fin 2) (_ : Fin 1) => (j : Int) + (r.val : Int) + 1)
            * (Matrix.of fun (r : Fin 2) (_ : Fin 1) =>
                ((2 - j : Nat) : Int) + (r.val : Int) + 1).transpose) 0 1 ∧
    syrk_reduced_gemm_count 2 = 1 :=
  have h := syrk_reduced_plane_is_convolution (m := 2) (k := 1)
    (fun j => Matrix.of fun r _ => (j : Int) + (r.val : Int) + 1) 0 2 0 1 (by decide)
  ⟨h.1, by decide⟩

/-! ## Separators of `parse_SDP` -/

/-- C17 (evaluation at the failing inputs).  On the well-formed text
`SDP[{1},{2},{3}]`, with the objective ending at position 7 and the
normalization vector at position 11, the comma after which the matrices are
parsed is the one at position 7, before the end of the normalization vector
(the search starts at `end_objective`), so the matrices are parsed from the
normalization vector on.  On `SDP[{1},{2}]`, where no comma occurs at or after
position 11, no "Missing comma after normalization" is raised: the same comma
at position 7 is found again. -/
theorem parse_SDP_comma_example :
    parse_SDP "SDP[\x7b1\x7d,\x7b2\x7d,\x7b3\x7d]".toList 0
        (fun s => if s = 0 then 7 else 11) (fun _ => 15)
      = ParseResult.ok ⟨0, 7, 7, 11, 7, 15, 16⟩ ∧
    find_from "SDP[\x7b1\x7d,\x7b2\x7d,\x7b3\x7d]".toList 11 ',' = 11 ∧
    parse_SDP "SDP[\x7b1\x7d,\x7b2\x7d]".toList 0
        (fun s => if s = 0 then 7 else 11) (fun _ => 11)
      = ParseResult.ok ⟨0, 7, 7, 11, 7, 11, 12⟩ ∧
    find_from "SDP[\x7b1\x7d,\x7b2\x7d]".toList 11 ','
      = "SDP[\x7b1\x7d,\x7b2\x7d]".toList.length := by
  decide

end Mpmat
